import Mathlib

/-!
Verification of hiragana-practice: the script classifier, the annotation
extractor and the romaji transliteration.

A shallow embedding of `src/index.js`.

A JavaScript string is a sequence of UTF-16 code units, so it is modelled as a
`List Nat` (one number per code unit).  `String.prototype.length`, `slice`,
indexing and the two regular expressions of the source (none has the `u` flag)
all work on code units; only `Array.from(str)` iterates by code point, which is
modelled by `arrayFrom`.
-/

namespace HiraganaPractice

/-- A JavaScript string: its UTF-16 code units. -/
abbrev JSString := List Nat

/-- UTF-16 encoding of one Unicode scalar value. -/
def encodeUnit (n : Nat) : JSString :=
  if n < 0x10000 then [n]
  else [0xD800 + (n - 0x10000) / 0x400, 0xDC00 + (n - 0x10000) % 0x400]

/-- The JavaScript string denoted by a literal of the source. -/
def utf16 (s : String) : JSString :=
  s.toList.flatMap fun c => encodeUnit c.toNat

/-! ## Built-ins of the language used by the source -/

/-- The comparison `a < b` on strings: lexicographic on code units, a proper prefix is smaller. -/
def strLt : JSString → JSString → Bool
  | _, [] => false
  | [], _ :: _ => true
  | a :: as, b :: bs => decide (a < b) || (a == b && strLt as bs)

/-- The comparison `a >= b` on strings. -/
def strGe (a b : JSString) : Bool := !strLt a b

/-- The comparison `a <= b` on strings. -/
def strLe (a b : JSString) : Bool := !strLt b a

/-- The method `s.includes(sub)`: `sub` occurs in `s` as a contiguous run of code units. -/
def includes : JSString → JSString → Bool
  | [], sub => sub.isEmpty
  | c :: cs, sub => sub.isPrefixOf (c :: cs) || includes cs sub

/-- High (leading) surrogate code unit. -/
def isHighSurrogate (c : Nat) : Bool := decide (0xD800 ≤ c) && decide (c ≤ 0xDBFF)

/-- Low (trailing) surrogate code unit. -/
def isLowSurrogate (c : Nat) : Bool := decide (0xDC00 ≤ c) && decide (c ≤ 0xDFFF)

/-- The call `Array.from(str)`: the string iterator yields one string per code point; a
high surrogate directly followed by a low surrogate is one element of two code
units, every other code unit (a lone surrogate included) is an element of its own. -/
def arrayFrom : JSString → List JSString
  | [] => []
  | [a] => [[a]]
  | a :: b :: rest =>
    if isHighSurrogate a && isLowSurrogate b then [a, b] :: arrayFrom rest
    else [a] :: arrayFrom (b :: rest)

/-- Line terminators, which `.` of a regular expression without the `s` flag
does not match: LF, CR, U+2028, U+2029. -/
def isLineTerminator (c : Nat) : Bool :=
  c == 0x0A || c == 0x0D || c == 0x2028 || c == 0x2029

/-- The part `(.*?)(?=】)` of the pattern, anchored at the head of the list: the
shortest run of code units other than line terminators that is directly
followed by "】" (U+3011).  `none` when the lazy scan meets a line terminator or
the end of the string first. -/
def lazyDot : JSString → Option JSString
  | [] => none
  | c :: cs =>
    if c = 0x3011 then some []
    else if isLineTerminator c then none
    else (lazyDot cs).map (c :: ·)

/-- The call `str.match(/(?<=【)(.*?)(?=】)/)`, reduced to `match[0]`: start positions
are tried from left to right; a start position is admissible when the code unit
before it is "【" (U+3010), and the first admissible position at which
`lazyDot` succeeds gives the match.  `none` is the `null` of a failed match. -/
def regexMatch : JSString → Option JSString
  | [] => none
  | c :: cs =>
    if c = 0x3010 then
      match lazyDot cs with
      | some m => some m
      | none => regexMatch cs
    else regexMatch cs

/-! ## `isHiragana` -/

/-- The callback of `every` in `isHiragana`:
`(ch >= "ぁ" && ch <= "ゟ") || "ー（）、".includes(ch)`. -/
def hiraganaCh (ch : JSString) : Bool :=
  (strGe ch (utf16 "ぁ") && strLe ch (utf16 "ゟ")) || includes (utf16 "ー（）、") ch

/-- The body of `isHiragana`, with the depth of the recursion bounded by
`fuel`; `none` means that the bound was reached. -/
def isHiraganaFuel : Nat → JSString → Option Bool
  | 0, _ => none
  | fuel + 1, str =>
    if includes str (utf16 "【") then
      match regexMatch str with
      | some m => isHiraganaFuel fuel m
      | none => some ((arrayFrom str).all hiraganaCh)
    else some ((arrayFrom str).all hiraganaCh)

/-- The function `isHiragana(str)`.  The bound `str.length + 1` is never reached
(`isHiraganaFuel_isSome`). -/
def isHiragana (str : JSString) : Bool :=
  (isHiraganaFuel (str.length + 1) str).getD false

/-! ## `extractHiragana` -/

/-- The function `extractHiragana(str)`: `match ? match[0] : str`.  A successful match is an
array, which is truthy even when `match[0]` is the empty string. -/
def extractHiragana (str : JSString) : JSString :=
  match regexMatch str with
  | some m => m
  | none => str

/-! ## Words of the specification -/

/-- Decoding of UTF-16: the code points of a string, a lone surrogate counting
as the code point of its own value. -/
def codePoints : JSString → List Nat
  | [] => []
  | [a] => [a]
  | a :: b :: rest =>
    if isHighSurrogate a && isLowSurrogate b then
      (0x10000 + (a - 0xD800) * 0x400 + (b - 0xDC00)) :: codePoints rest
    else a :: codePoints (b :: rest)

/-- A code point of the hiragana block U+3041..U+309F or one of "ー" (U+30FC),
"（" (U+FF08), "）" (U+FF09), "、" (U+3001). -/
def Accepted (cp : Nat) : Prop :=
  (0x3041 ≤ cp ∧ cp ≤ 0x309F) ∨ cp = 0x30FC ∨ cp = 0xFF08 ∨ cp = 0xFF09 ∨ cp = 0x3001

instance (cp : Nat) : Decidable (Accepted cp) := by unfold Accepted; infer_instance

/-- The text before the first "】" (U+3011); `none` when there is no "】". -/
def uptoFirstClose : JSString → Option JSString
  | [] => none
  | c :: cs => if c = 0x3011 then some [] else (uptoFirstClose cs).map (c :: ·)

/-- The text after the first "【" (U+3010); `none` when there is no "【". -/
def afterFirstOpen : JSString → Option JSString
  | [] => none
  | c :: cs => if c = 0x3010 then some cs else afterFirstOpen cs

/-- The text strictly between the first "【" and the first "】" after it; `none`
when the text has no "【" followed somewhere later by a "】". -/
def interior (text : JSString) : Option JSString :=
  (afterFirstOpen text).bind uptoFirstClose

/-! ## `ROMAJI_MAP` -/

/-- The entries of the JSON text parsed into `ROMAJI_MAP`, in source order. -/
def romajiEntries : List (String × String) := [
  ("あ", "a"),  ("い", "i"),   ("う", "u"),   ("え", "e"),  ("お", "o"),
  ("か", "ka"), ("き", "ki"),  ("く", "ku"),  ("け", "ke"), ("こ", "ko"),
  ("さ", "sa"), ("し", "shi"), ("す", "su"),  ("せ", "se"), ("そ", "so"),
  ("た", "ta"), ("ち", "chi"), ("つ", "tsu"), ("て", "te"), ("と", "to"),
  ("な", "na"), ("に", "ni"),  ("ぬ", "nu"),  ("ね", "ne"), ("の", "no"),
  ("は", "ha"), ("ひ", "hi"),  ("ふ", "fu"),  ("へ", "he"), ("ほ", "ho"),
  ("ま", "ma"), ("み", "mi"),  ("む", "mu"),  ("め", "me"), ("も", "mo"),
  ("や", "ya"),              ("ゆ", "yu"),             ("よ", "yo"),
  ("ら", "ra"), ("り", "ri"),  ("る", "ru"),  ("れ", "re"), ("ろ", "ro"),
  ("わ", "wa"),                                      ("を", "wo"),

  ("が", "ga"), ("ぎ", "gi"),  ("ぐ", "gu"),  ("げ", "ge"), ("ご", "go"),
  ("ざ", "za"), ("じ", "ji"),  ("ず", "zu"),  ("ぜ", "ze"), ("ぞ", "zo"),
  ("だ", "da"), ("ぢ", "ji"),  ("づ", "zu"),  ("で", "de"), ("ど", "do"),
  ("ば", "ba"), ("び", "bi"),  ("ぶ", "bu"),  ("べ", "be"), ("ぼ", "bo"),
  ("ぱ", "pa"), ("ぴ", "pi"),  ("ぷ", "pu"),  ("ぺ", "pe"), ("ぽ", "po"),

  ("きゃ", "kya"), ("きゅ", "kyu"), ("きょ", "kyo"),
  ("しゃ", "sha"), ("しゅ", "shu"), ("しょ", "sho"),
  ("ちゃ", "cha"), ("ちゅ", "chu"), ("ちょ", "cho"),
  ("にゃ", "nya"), ("にゅ", "nyu"), ("にょ", "nyo"),
  ("ひゃ", "hya"), ("ひゅ", "hyu"), ("ひょ", "hyo"),
  ("みゃ", "mya"), ("みゅ", "myu"), ("みょ", "myo"),
  ("りゃ", "rya"), ("りゅ", "ryu"), ("りょ", "ryo"),
  ("ぎゃ", "gya"), ("ぎゅ", "gyu"), ("ぎょ", "gyo"),
  ("じゃ", "ja"),  ("じゅ", "ju"),  ("じょ", "jo"),
  ("びゃ", "bya"), ("びゅ", "byu"), ("びょ", "byo"),
  ("ぴゃ", "pya"), ("ぴゅ", "pyu"), ("ぴょ", "pyo"),

  ("ん", "n"),

  ("（", " ("), ("）", ")"), ("、", ", ")
]

/-- The own properties of the object `ROMAJI_MAP` as pairs of strings. -/
def romajiTable : List (JSString × JSString) :=
  romajiEntries.map fun e => (utf16 e.1, utf16 e.2)

/-- Property access `ROMAJI_MAP[key]`; `none` is `undefined`.  The keys that
the source looks up have one or two code units, and `Object.prototype` has no
property with so short a name, so only own properties are found. -/
def ROMAJI_MAP (key : JSString) : Option JSString :=
  romajiTable.lookup key

/-- The three punctuation keys of `ROMAJI_MAP`. -/
def punctuationKeys : List JSString := [utf16 "（", utf16 "）", utf16 "、"]

/-- Truthiness of the result of a property access: `undefined` and the empty
string are falsy, every other string is truthy. -/
def truthy : Option JSString → Bool
  | some (_ :: _) => true
  | _ => false

/-- The expression `v || d` for a looked-up value `v` and a string `d`. -/
def orElse (v : Option JSString) (d : JSString) : JSString :=
  if truthy v then v.getD [] else d

/-! ## `toRomaji` -/

/-- The call `s.slice(i, j)` for indices `0 ≤ i`, `0 ≤ j`. -/
def slice (s : JSString) (i j : Nat) : JSString := (s.take j).drop i

/-- The access `s[i]` for `i < s.length`, as a string of one code unit. -/
def charAt (s : JSString) (i : Nat) : JSString := (s.drop i).take 1

/-- The `for` loop of `toRomaji`, as a function of the loop variables `i` and
`result`; `fuel` bounds the number of iterations (each one increases `i`, so
`hiragana.length` iterations are enough: `toRomajiLoop_eq`). -/
def toRomajiLoop (hiragana : JSString) : Nat → Nat → JSString → JSString
  | 0, _, result => result
  | fuel + 1, i, result =>
    if i < hiragana.length then
      let twoChar := slice hiragana i (i + 2)
      if truthy (ROMAJI_MAP twoChar) then
        toRomajiLoop hiragana fuel (i + 1 + 1) (result ++ (ROMAJI_MAP twoChar).getD [])
      else
        toRomajiLoop hiragana fuel (i + 1)
          (result ++ orElse (ROMAJI_MAP (charAt hiragana i)) (charAt hiragana i))
    else result

/-- The output of the loop of `toRomaji` as a function of the part of the input
not yet read (`hiragana.slice(i)`), used to reason about the loop:
`toRomajiLoop_eq` shows that the loop appends exactly this to `result`. -/
def translit : JSString → JSString
  | [] => []
  | [a] =>
    if truthy (ROMAJI_MAP [a]) then (ROMAJI_MAP [a]).getD []
    else orElse (ROMAJI_MAP [a]) [a]
  | a :: b :: rest =>
    if truthy (ROMAJI_MAP [a, b]) then (ROMAJI_MAP [a, b]).getD [] ++ translit rest
    else orElse (ROMAJI_MAP [a]) [a] ++ translit (b :: rest)

/-- One of the small kana "ゃ" (U+3083), "ゅ" (U+3085), "ょ" (U+3087), the second
code units of the digraph keys. -/
def isSmallY (c : Nat) : Bool := c == 0x3083 || c == 0x3085 || c == 0x3087

/-- Shape of the key of an entry: one code unit that is not a small kana, or
two code units of which exactly the second is a small kana. -/
def keyShape (e : JSString × JSString) : Bool :=
  match e.1 with
  | [a] => !isSmallY a
  | [a, b] => !isSmallY a && isSmallY b
  | _ => false

/-- The class `[a-z]` of the sokuon pattern (no `i` flag). -/
def isLower (c : Nat) : Bool := decide (0x61 ≤ c) && decide (c ≤ 0x7A)

/-- The class `[aeiou]` of the long-vowel pattern. -/
def isVowel (c : Nat) : Bool :=
  c == 0x61 || c == 0x65 || c == 0x69 || c == 0x6F || c == 0x75

/-- The rewrite `result.replace(/っ([a-z])/g, (_, c) => c + c)`: matches are
found from left to right and do not overlap; the replacement text is not
scanned again.  "っ" is U+3063. -/
def geminate : JSString → JSString
  | [] => []
  | [a] => [a]
  | a :: b :: rest =>
    if a = 0x3063 ∧ isLower b = true then b :: b :: geminate rest
    else a :: geminate (b :: rest)

/-- The rewrite `result.replace(/([aeiou])ー/g, (_, v) => v + v)`, with the same
scanning discipline.  "ー" is U+30FC. -/
def elongate : JSString → JSString
  | [] => []
  | [a] => [a]
  | a :: b :: rest =>
    if isVowel a = true ∧ b = 0x30FC then a :: a :: elongate rest
    else a :: elongate (b :: rest)

/-- Shape of the value of an entry: not empty, without "っ" and "ー", and either
made of lowercase letters only or, under a key of one code unit, neither
beginning with a letter nor ending in a vowel (the punctuation entries). -/
def valShape (e : JSString × JSString) : Bool :=
  !e.2.isEmpty && e.2.all (fun x => x != 0x3063 && x != 0x30FC)
    && (e.2.all isLower
      || (e.1.length == 1 && !e.2.head?.any isLower && !e.2.getLast?.any isVowel))

/-- White space and line terminators, the code units that `trim` strips:
TAB, LF, VT, FF, CR, SP, NBSP, U+1680, U+2000..U+200A, U+2028, U+2029, U+202F,
U+205F, U+3000 and U+FEFF. -/
def isWhiteSpace (c : Nat) : Bool :=
  decide (0x09 ≤ c ∧ c ≤ 0x0D) || c == 0x20 || c == 0xA0 || c == 0x1680
    || decide (0x2000 ≤ c ∧ c ≤ 0x200A) || c == 0x2028 || c == 0x2029
    || c == 0x202F || c == 0x205F || c == 0x3000 || c == 0xFEFF

/-- The method `s.trim()`. -/
def trim (s : JSString) : JSString :=
  (s.dropWhile isWhiteSpace).rdropWhile isWhiteSpace

/-- The function `toRomaji(hiragana)`. -/
def toRomaji (hiragana : JSString) : JSString :=
  trim (elongate (geminate (toRomajiLoop hiragana hiragana.length 0 [])))

/-! ## Classes of entries of the table -/

/-- The base syllables of the spec (vowels and the k, s, t, n, h, m, y, r, w rows). -/
def baseKana : JSString :=
  utf16 "あいうえおかきくけこさしすせそたちつてとなにぬねのはひふへほまみむめもやゆよらりるれろわを"

/-- The voiced and semi-voiced variants of the spec (the g, z, d, b, p rows). -/
def voicedKana : JSString :=
  utf16 "がぎぐげござじずぜぞだぢづでどばびぶべぼぱぴぷぺぽ"

/-- An entry whose key is one base syllable. -/
def isBaseEntry (e : JSString × JSString) : Bool :=
  match e.1 with
  | [a] => baseKana.contains a
  | _ => false

/-- An entry whose key is one voiced or semi-voiced syllable. -/
def isVoicedEntry (e : JSString × JSString) : Bool :=
  match e.1 with
  | [a] => voicedKana.contains a
  | _ => false

/-- An entry whose key is a digraph of two code units. -/
def isDigraphEntry (e : JSString × JSString) : Bool := e.1.length == 2

/-- The entry of the moraic nasal "ん". -/
def isNasalEntry (e : JSString × JSString) : Bool := e.1 == utf16 "ん"

/-- An entry under one of the three punctuation keys. -/
def isPunctuationEntry (e : JSString × JSString) : Bool := punctuationKeys.contains e.1

/-- The hiragana block U+3041..U+309F. -/
def inHiraganaBlock (cp : Nat) : Bool := decide (0x3041 ≤ cp) && decide (cp ≤ 0x309F)

/-! ## The answer check of the quiz -/

/-- The field `current.romaji` that `newWord` computes from `current.jp`:
`toRomaji(extractHiragana(current.jp))`. -/
def expectedAnswer (jp : JSString) : JSString := toRomaji (extractHiragana jp)

/-- The test of the input listener,
`answerInput.value.trim().toLowerCase() === current.romaji`.  The built-in
`toLowerCase` (the Unicode lowercase mapping of the engine) is a parameter. -/
def checkAnswer (toLowerCase : JSString → JSString) (value romaji : JSString) : Bool :=
  toLowerCase (trim value) == romaji

/-- Code units without an uppercase form that can occur in an expected answer:
the letters a-z, space, "(", ")", ",", the hiragana block, and "ー", "（", "）",
"、".  The lowercase mapping leaves every one of them as it is. -/
def isCaseless (c : Nat) : Bool :=
  isLower c || c == 0x20 || c == 0x28 || c == 0x29 || c == 0x2C || decide (Accepted c)

/-- Lowercasing of the letters A-Z, every other code unit unchanged: the
reference against which the assumption on `toLowerCase` is stated.  It is what
the engine does on strings of ASCII and accepted code units, not on every
string (the engine also maps, for one, U+212A KELVIN SIGN to "k"). -/
def asciiLower (s : JSString) : JSString :=
  s.map fun c => if 0x41 ≤ c ∧ c ≤ 0x5A then c + 0x20 else c

/-- Code units on which the lowercase mapping of the engine is the plain one:
the ASCII range U+0000..U+007F, where only the letters A-Z change (to a-z),
and the accepted code units of `isHiragana`, which have no case. -/
def isSimple (c : Nat) : Bool := decide (c < 0x80) || decide (Accepted c)

/-- A lowercase mapping that lowercases A-Z and also maps U+212A KELVIN SIGN to
"k", as the engine does; an instance of the assumption made on `toLowerCase`
that is not `asciiLower`. -/
def sampleLower (s : JSString) : JSString :=
  s.map fun c =>
    if 0x41 ≤ c ∧ c ≤ 0x5A then c + 0x20 else if c = 0x212A then 0x6B else c

/-! ## Literals of the source as code units -/

theorem utf16_open : utf16 "【" = [0x3010] := by decide

theorem utf16_small_a : utf16 "ぁ" = [0x3041] := by decide

theorem utf16_yori : utf16 "ゟ" = [0x309F] := by decide

theorem utf16_punct : utf16 "ー（）、" = [0x30FC, 0xFF08, 0xFF09, 0x3001] := by decide

/-! ## The per-code-point check -/

theorem includes_singleton (c : Nat) (s : JSString) :
    includes s [c] = true ↔ c ∈ s := by
  induction s with
  | nil => simp [includes]
  | cons a as ih =>
    simp only [includes, Bool.or_eq_true, ih, List.mem_cons]
    constructor
    · rintro (h | h)
      · left
        simpa [List.isPrefixOf] using h
      · exact Or.inr h
    · rintro (h | h)
      · left
        simp [List.isPrefixOf, h]
      · exact Or.inr h

theorem hiraganaCh_single (a : Nat) : hiraganaCh [a] = true ↔ Accepted a := by
  unfold hiraganaCh Accepted
  rw [utf16_small_a, utf16_yori, utf16_punct]
  simp only [strGe, strLe, strLt, includes, List.isPrefixOf, List.isEmpty]
  simp only [Bool.or_eq_true, Bool.and_eq_true, Bool.not_eq_true', Bool.or_eq_false_iff,
    Bool.and_eq_false_imp, decide_eq_false_iff_not, decide_eq_true_eq, beq_iff_eq,
    Bool.and_true, Bool.or_false, Bool.and_false]
  omega

theorem hiraganaCh_pair (a b : Nat) (ha : isHighSurrogate a = true) :
    hiraganaCh [a, b] = false := by
  unfold hiraganaCh
  rw [utf16_small_a, utf16_yori, utf16_punct]
  simp only [isHighSurrogate, Bool.and_eq_true, decide_eq_true_eq] at ha
  simp only [strGe, strLe, strLt, includes, List.isPrefixOf, List.isEmpty]
  simp only [Bool.or_eq_false_iff, Bool.and_eq_false_imp, Bool.not_eq_true',
    decide_eq_false_iff_not, decide_eq_true_eq, beq_iff_eq, Bool.and_eq_true,
    Bool.and_true, Bool.or_false, Bool.and_false, Bool.not_eq_false', Bool.or_eq_true]
  omega

theorem not_accepted_astral (a b : Nat) :
    ¬ Accepted (0x10000 + (a - 0xD800) * 0x400 + (b - 0xDC00)) := by
  unfold Accepted
  omega

/-- The check of `every` over `Array.from(str)` says that every code point of
the string is an accepted one. -/
theorem all_arrayFrom (s : JSString) :
    (arrayFrom s).all hiraganaCh = true ↔ ∀ cp ∈ codePoints s, Accepted cp := by
  induction s using arrayFrom.induct with
  | case1 => simp [arrayFrom, codePoints]
  | case2 a => simp [arrayFrom, codePoints, hiraganaCh_single]
  | case3 a b rest h ih =>
    have ha : isHighSurrogate a = true := by
      simp only [Bool.and_eq_true] at h
      exact h.1
    simp only [arrayFrom, codePoints, h, if_true, List.all_cons, Bool.and_eq_true,
      hiraganaCh_pair a b ha, List.mem_cons, forall_eq_or_imp, ih]
    simp [not_accepted_astral a b]
  | case4 a b rest h ih =>
    simp only [arrayFrom, codePoints, h, List.all_cons, Bool.and_eq_true,
      hiraganaCh_single, List.mem_cons, forall_eq_or_imp, ih]
    simp only [List.all_eq_true] at ih
    simp [hiraganaCh_single, ih]

/-! ## The bracket pattern -/

theorem lazyDot_eq_append {s m : JSString} (h : lazyDot s = some m) :
    ∃ rest, s = m ++ 0x3011 :: rest := by
  induction s generalizing m with
  | nil => simp [lazyDot] at h
  | cons c cs ih =>
    unfold lazyDot at h
    split at h
    · next hc =>
      cases h
      exact ⟨cs, by simp [hc]⟩
    · split at h
      · cases h
      · cases hq : lazyDot cs with
        | none => simp [hq] at h
        | some q =>
          rw [hq] at h
          simp only [Option.map_some', Option.some.injEq] at h
          obtain ⟨rest, hrest⟩ := ih hq
          exact ⟨rest, by rw [← h, hrest]; rfl⟩

theorem lazyDot_length_lt {s m : JSString} (h : lazyDot s = some m) :
    m.length < s.length := by
  obtain ⟨rest, hrest⟩ := lazyDot_eq_append h
  rw [hrest]
  simp

/-- The captured interior is strictly shorter than the text it was captured from. -/
theorem regexMatch_length_lt {s m : JSString} (h : regexMatch s = some m) :
    m.length < s.length := by
  induction s with
  | nil => simp [regexMatch] at h
  | cons c cs ih =>
    unfold regexMatch at h
    split at h
    · cases hq : lazyDot cs with
      | none =>
        rw [hq] at h
        have := ih h
        simp only [List.length_cons]
        omega
      | some q =>
        rw [hq] at h
        cases h
        have := lazyDot_length_lt hq
        simp only [List.length_cons]
        omega
    · have := ih h
      simp only [List.length_cons]
      omega

theorem uptoFirstClose_eq_none {s : JSString} :
    uptoFirstClose s = none ↔ 0x3011 ∉ s := by
  induction s with
  | nil => simp [uptoFirstClose]
  | cons c cs ih =>
    unfold uptoFirstClose
    by_cases hc : c = 0x3011
    · simp [hc]
    · have hc' : ¬ (0x3011 = c) := fun h => hc h.symm
      simp [hc, hc', ih]

theorem afterFirstOpen_eq_none {s : JSString} :
    afterFirstOpen s = none ↔ 0x3010 ∉ s := by
  induction s with
  | nil => simp [afterFirstOpen]
  | cons c cs ih =>
    unfold afterFirstOpen
    by_cases hc : c = 0x3010
    · simp [hc]
    · have hc' : ¬ (0x3010 = c) := fun h => hc h.symm
      simp [hc, hc', ih]

theorem afterFirstOpen_subset {s t : JSString} (h : afterFirstOpen s = some t) :
    ∀ x ∈ t, x ∈ s := by
  induction s with
  | nil => simp [afterFirstOpen] at h
  | cons c cs ih =>
    unfold afterFirstOpen at h
    split at h
    · cases h
      intro x hx
      exact List.mem_cons_of_mem _ hx
    · intro x hx
      exact List.mem_cons_of_mem _ (ih h x hx)

/-- On a run without line terminators the lazy scan stops at the first "】". -/
theorem lazyDot_of_uptoFirstClose {s m : JSString} (h : uptoFirstClose s = some m)
    (hm : ∀ c ∈ m, isLineTerminator c = false) : lazyDot s = some m := by
  induction s generalizing m with
  | nil => simp [uptoFirstClose] at h
  | cons c cs ih =>
    unfold uptoFirstClose at h
    unfold lazyDot
    split at h
    · next hc =>
      cases h
      simp [hc]
    · next hc =>
      cases hq : uptoFirstClose cs with
      | none => simp [hq] at h
      | some q =>
        rw [hq] at h
        simp only [Option.map_some', Option.some.injEq] at h
        subst h
        have hcl : isLineTerminator c = false := hm c (List.mem_cons_self _ _)
        have hq' := ih hq (fun x hx => hm x (List.mem_cons_of_mem _ hx))
        simp [hc, hcl, hq']

theorem regexMatch_of_afterFirstOpen {s t m : JSString} (h : afterFirstOpen s = some t)
    (hm : lazyDot t = some m) : regexMatch s = some m := by
  induction s with
  | nil => simp [afterFirstOpen] at h
  | cons c cs ih =>
    unfold afterFirstOpen at h
    unfold regexMatch
    split at h
    · next hc =>
      cases h
      simp [hc, hm]
    · next hc =>
      simp [hc, ih h]

/-- A match needs a "】" somewhere after the first "【". -/
theorem regexMatch_some_interior {s m : JSString} (h : regexMatch s = some m) :
    ∃ t, afterFirstOpen s = some t ∧ 0x3011 ∈ t := by
  induction s with
  | nil => simp [regexMatch] at h
  | cons c cs ih =>
    unfold regexMatch at h
    unfold afterFirstOpen
    split at h
    · next hc =>
      refine ⟨cs, by simp [hc], ?_⟩
      cases hq : lazyDot cs with
      | none =>
        rw [hq] at h
        obtain ⟨t, ht, hmem⟩ := ih h
        exact afterFirstOpen_subset ht _ hmem
      | some q =>
        obtain ⟨rest, hrest⟩ := lazyDot_eq_append hq
        rw [hrest]
        simp
    · next hc =>
      obtain ⟨t, ht, hmem⟩ := ih h
      exact ⟨t, by simp [hc, ht], hmem⟩

theorem regexMatch_eq_none_of_interior {s : JSString} (h : interior s = none) :
    regexMatch s = none := by
  cases hq : regexMatch s with
  | none => rfl
  | some m =>
    obtain ⟨t, ht, hmem⟩ := regexMatch_some_interior hq
    unfold interior at h
    rw [ht] at h
    simp only [Option.some_bind] at h
    exact absurd hmem (uptoFirstClose_eq_none.mp h)

theorem regexMatch_of_interior {s m : JSString} (h : interior s = some m)
    (hm : ∀ c ∈ m, isLineTerminator c = false) : regexMatch s = some m := by
  unfold interior at h
  cases ht : afterFirstOpen s with
  | none => simp [ht] at h
  | some t =>
    rw [ht] at h
    simp only [Option.some_bind] at h
    exact regexMatch_of_afterFirstOpen ht (lazyDot_of_uptoFirstClose h hm)

theorem includes_open_of_interior {s m : JSString} (h : interior s = some m) :
    includes s (utf16 "【") = true := by
  rw [utf16_open, includes_singleton]
  by_contra hmem
  have := afterFirstOpen_eq_none.mpr hmem
  simp [interior, this] at h

/-! ## The recursion of `isHiragana` -/

/-- Every bound above the length of the text gives the same result. -/
theorem isHiraganaFuel_stable (n : Nat) :
    ∀ str : JSString, str.length ≤ n → ∀ k, str.length < k →
      isHiraganaFuel k str = isHiraganaFuel (str.length + 1) str := by
  induction n with
  | zero =>
    intro str hlen k hk
    have hnil : str = [] := List.length_eq_zero.mp (Nat.le_zero.mp hlen)
    subst hnil
    cases k with
    | zero => simp at hk
    | succ k => simp [isHiraganaFuel, includes, utf16_open]
  | succ n ih =>
    intro str hlen k hk
    cases k with
    | zero => omega
    | succ k =>
      unfold isHiraganaFuel
      split
      · cases hq : regexMatch str with
        | none => rfl
        | some m =>
          have hlt := regexMatch_length_lt hq
          simp only
          rw [ih m (by omega) k (by omega), ih m (by omega) str.length hlt]
      · rfl

/-- The bound `str.length + 1` is never reached. -/
theorem isHiraganaFuel_isSome (n : Nat) :
    ∀ str : JSString, str.length ≤ n → ∃ b, isHiraganaFuel (str.length + 1) str = some b := by
  induction n with
  | zero =>
    intro str hlen
    have hnil : str = [] := List.length_eq_zero.mp (Nat.le_zero.mp hlen)
    subst hnil
    exact ⟨true, by decide⟩
  | succ n ih =>
    intro str hlen
    unfold isHiraganaFuel
    split
    · cases hq : regexMatch str with
      | none => exact ⟨_, rfl⟩
      | some m =>
        have hlt := regexMatch_length_lt hq
        obtain ⟨b, hb⟩ := ih m (by omega)
        refine ⟨b, ?_⟩
        simp only
        rw [isHiraganaFuel_stable str.length m (by omega) str.length hlt, hb]
    · exact ⟨_, rfl⟩

/-- The body of `isHiragana`, read as an equation. -/
theorem isHiragana_unfold (str : JSString) :
    isHiragana str =
      if includes str (utf16 "【") then
        match regexMatch str with
        | some m => isHiragana m
        | none => (arrayFrom str).all hiraganaCh
      else (arrayFrom str).all hiraganaCh := by
  unfold isHiragana
  rw [isHiraganaFuel]
  split
  · cases hq : regexMatch str with
    | none => rfl
    | some m =>
      have hlt := regexMatch_length_lt hq
      simp only
      rw [isHiraganaFuel_stable str.length m (by omega) str.length hlt]
  · rfl

/-! ## The loop of `toRomaji` -/

/-- With `fuel` at least the number of code units left, the loop runs to its
end and appends `translit` of the unread input to `result`. -/
theorem toRomajiLoop_eq (hiragana : JSString) (fuel : Nat) :
    ∀ (i : Nat) (result : JSString), hiragana.length ≤ i + fuel →
      toRomajiLoop hiragana fuel i result = result ++ translit (hiragana.drop i) := by
  induction fuel with
  | zero =>
    intro i result h
    have hd : hiragana.drop i = [] := List.drop_eq_nil_of_le (by omega)
    simp [toRomajiLoop, hd, translit]
  | succ fuel ih =>
    intro i result h
    unfold toRomajiLoop
    by_cases hi : i < hiragana.length
    · rw [if_pos hi]
      have hslice : slice hiragana i (i + 2) = (hiragana.drop i).take 2 := by
        unfold slice
        rw [List.drop_take]
        simp
      have hd1 : hiragana.drop (i + 1) = (hiragana.drop i).drop 1 := by
        rw [List.drop_drop, Nat.add_comm]
      have hd2 : hiragana.drop (i + 1 + 1) = (hiragana.drop i).drop 2 := by
        rw [List.drop_drop]
      have hne : hiragana.drop i ≠ [] := by
        intro hnil
        have := List.drop_eq_nil_iff.mp hnil
        omega
      simp only [hslice, charAt]
      rw [ih (i + 1 + 1) _ (by omega), ih (i + 1) _ (by omega), hd1, hd2]
      generalize hiragana.drop i = l at hne
      match l, hne with
      | [a], _ =>
        simp only [List.take, List.drop, translit, List.append_nil]
        split <;> simp [orElse, *]
      | a :: b :: rest, _ =>
        simp only [List.take, List.drop, translit]
        split <;> simp
    · rw [if_neg hi]
      have hd : hiragana.drop i = [] := List.drop_eq_nil_of_le (by omega)
      simp [hd, translit]

theorem toRomaji_eq (hiragana : JSString) :
    toRomaji hiragana = trim (elongate (geminate (translit hiragana))) := by
  unfold toRomaji
  rw [toRomajiLoop_eq hiragana hiragana.length 0 [] (by omega)]
  simp

/-! ## Facts about the table -/

theorem mem_of_lookup {l : List (JSString × JSString)} {k r : JSString}
    (h : l.lookup k = some r) : (k, r) ∈ l := by
  induction l with
  | nil => simp at h
  | cons e es ih =>
    obtain ⟨k', r'⟩ := e
    rw [List.lookup_cons] at h
    cases hb : (k == k') with
    | true =>
      rw [hb] at h
      simp only [Option.some.injEq] at h
      have hk : k = k' := by simpa using hb
      rw [hk, h]
      exact List.mem_cons_self _ _
    | false =>
      rw [hb] at h
      exact List.mem_cons_of_mem _ (ih h)

theorem mem_of_ROMAJI_MAP {k r : JSString} (h : ROMAJI_MAP k = some r) :
    (k, r) ∈ romajiTable :=
  mem_of_lookup h

theorem isSmallY_iff (c : Nat) :
    isSmallY c = true ↔ c = 0x3083 ∨ c = 0x3085 ∨ c = 0x3087 := by
  simp [isSmallY, or_assoc]

set_option maxRecDepth 100000 in
theorem table_keyShape : ∀ e ∈ romajiTable, keyShape e = true := by decide!

set_option maxRecDepth 100000 in
theorem table_valShape : ∀ e ∈ romajiTable, valShape e = true := by decide!

set_option maxRecDepth 100000 in
theorem table_key_units :
    ∀ e ∈ romajiTable, e.1.all (fun c => decide (c < 0xD800 ∨ 0xDFFF < c)) = true := by
  decide!

set_option maxRecDepth 100000 in
theorem table_translit_key : ∀ e ∈ romajiTable, translit e.1 = e.2 := by decide!

set_option maxRecDepth 100000 in
theorem table_translit_sokuon :
    ∀ e ∈ romajiTable, translit (0x3063 :: e.1) = 0x3063 :: e.2 := by decide!

set_option maxRecDepth 100000 in
theorem table_translit_mark :
    ∀ e ∈ romajiTable, translit (e.1 ++ [0x30FC]) = e.2 ++ [0x30FC] := by decide!

/-! ## Synchronisation points of the three scans -/

theorem second_of_key {a b : Nat} (h : truthy (ROMAJI_MAP [a, b]) = true) :
    isSmallY b = true := by
  cases hq : ROMAJI_MAP [a, b] with
  | none => simp [hq, truthy] at h
  | some r =>
    have := table_keyShape _ (mem_of_ROMAJI_MAP hq)
    have h2 : isSmallY a = false ∧ isSmallY b = true := by simpa [keyShape] using this
    exact h2.2

/-- A code unit that is not a small kana is never read as the second half of a
digraph, so the loop reads it at the start of an iteration. -/
theorem translit_sync (T : JSString)
    (hT : ∀ h, T.head? = some h → isSmallY h = false) (n : Nat) :
    ∀ u : JSString, u.length ≤ n → ∃ X, translit (u ++ T) = X ++ translit T := by
  induction n with
  | zero =>
    intro u hu
    have hnil : u = [] := List.length_eq_zero.mp (Nat.le_zero.mp hu)
    exact ⟨[], by simp [hnil]⟩
  | succ n ih =>
    intro u hu
    match u, hu with
    | [], _ => exact ⟨[], by simp⟩
    | [a], _ =>
      match T, hT with
      | [], _ => exact ⟨translit [a], by simp [translit]⟩
      | h :: T', hT =>
        have hh : isSmallY h = false := hT h rfl
        have hf : truthy (ROMAJI_MAP [a, h]) = false := by
          cases hq : truthy (ROMAJI_MAP [a, h]) with
          | false => rfl
          | true => rw [second_of_key hq] at hh; cases hh
        exact ⟨orElse (ROMAJI_MAP [a]) [a], by simp [translit, hf]⟩
    | a :: b :: rest, hu =>
      simp only [List.length_cons] at hu
      have happ : (a :: b :: rest) ++ T = a :: b :: (rest ++ T) := rfl
      rw [happ, translit]
      split
      · obtain ⟨X, hX⟩ := ih rest (by omega)
        exact ⟨(ROMAJI_MAP [a, b]).getD [] ++ X, by rw [hX, List.append_assoc]⟩
      · obtain ⟨X, hX⟩ := ih (b :: rest) (by simp only [List.length_cons]; omega)
        refine ⟨orElse (ROMAJI_MAP [a]) [a] ++ X, ?_⟩
        rw [← List.cons_append, hX, List.append_assoc]

theorem geminate_fix (T : JSString) (hT : ∀ x ∈ T, x ≠ 0x3063) : geminate T = T := by
  induction T with
  | nil => rfl
  | cons a T ih =>
    cases T with
    | nil => rfl
    | cons b rest =>
      have ha : a ≠ 0x3063 := hT a (List.mem_cons_self _ _)
      have := ih (fun x hx => hT x (List.mem_cons_of_mem _ hx))
      simp [geminate, ha, this]

/-- A code unit outside `[a-z]` is never the second half of a sokuon match. -/
theorem geminate_sync (T : JSString)
    (hT : ∀ h, T.head? = some h → isLower h = false) (n : Nat) :
    ∀ u : JSString, u.length ≤ n → ∃ Z, geminate (u ++ T) = Z ++ geminate T := by
  induction n with
  | zero =>
    intro u hu
    have hnil : u = [] := List.length_eq_zero.mp (Nat.le_zero.mp hu)
    exact ⟨[], by simp [hnil]⟩
  | succ n ih =>
    intro u hu
    match u, hu with
    | [], _ => exact ⟨[], by simp⟩
    | [a], _ =>
      match T, hT with
      | [], _ => exact ⟨[a], by simp [geminate]⟩
      | h :: T', hT =>
        have hh : isLower h = false := hT h rfl
        exact ⟨[a], by simp [geminate, hh]⟩
    | a :: b :: rest, hu =>
      simp only [List.length_cons] at hu
      have happ : (a :: b :: rest) ++ T = a :: b :: (rest ++ T) := rfl
      rw [happ, geminate]
      split
      · obtain ⟨Z, hZ⟩ := ih rest (by omega)
        exact ⟨b :: b :: Z, by rw [hZ]; rfl⟩
      · obtain ⟨Z, hZ⟩ := ih (b :: rest) (by simp only [List.length_cons]; omega)
        refine ⟨a :: Z, ?_⟩
        rw [← List.cons_append, hZ]
        rfl

/-- A run without "っ" at the end of the text is still there after the sokuon
rewrite (a match may end on its first code unit, which the rewrite keeps). -/
theorem geminate_suffix (T : JSString) (hT : ∀ x ∈ T, x ≠ 0x3063) (n : Nat) :
    ∀ u : JSString, u.length ≤ n → ∃ Z, geminate (u ++ T) = Z ++ T := by
  induction n with
  | zero =>
    intro u hu
    have hnil : u = [] := List.length_eq_zero.mp (Nat.le_zero.mp hu)
    exact ⟨[], by simp [hnil, geminate_fix T hT]⟩
  | succ n ih =>
    intro u hu
    match u, hu with
    | [], _ => exact ⟨[], by simp [geminate_fix T hT]⟩
    | [a], _ =>
      match T, hT with
      | [], _ => exact ⟨[a], by simp [geminate]⟩
      | c :: T', hT =>
        have hT' : geminate T' = T' :=
          geminate_fix T' (fun x hx => hT x (List.mem_cons_of_mem _ hx))
        have hcT : geminate (c :: T') = c :: T' := geminate_fix _ hT
        by_cases hc : a = 0x3063 ∧ isLower c = true
        · exact ⟨[c], by simp [geminate, hc, hT']⟩
        · refine ⟨[a], ?_⟩
          simp only [List.cons_append, List.nil_append, geminate, if_neg hc, hcT]
    | a :: b :: rest, hu =>
      simp only [List.length_cons] at hu
      have happ : (a :: b :: rest) ++ T = a :: b :: (rest ++ T) := rfl
      rw [happ, geminate]
      split
      · obtain ⟨Z, hZ⟩ := ih rest (by omega)
        exact ⟨b :: b :: Z, by rw [hZ]; rfl⟩
      · obtain ⟨Z, hZ⟩ := ih (b :: rest) (by simp only [List.length_cons]; omega)
        refine ⟨a :: Z, ?_⟩
        rw [← List.cons_append, hZ]
        rfl

theorem elongate_fix (T : JSString) (hT : ∀ x ∈ T, x ≠ 0x30FC) : elongate T = T := by
  induction T with
  | nil => rfl
  | cons a T ih =>
    cases T with
    | nil => rfl
    | cons b rest =>
      have hb : b ≠ 0x30FC := hT b (List.mem_cons_of_mem _ (List.mem_cons_self _ _))
      have := ih (fun x hx => hT x (List.mem_cons_of_mem _ hx))
      simp [elongate, hb, this]

/-- A code unit other than "ー" is never the second half of a long-vowel match. -/
theorem elongate_sync (T : JSString)
    (hT : ∀ h, T.head? = some h → h ≠ 0x30FC) (n : Nat) :
    ∀ u : JSString, u.length ≤ n → ∃ Z, elongate (u ++ T) = Z ++ elongate T := by
  induction n with
  | zero =>
    intro u hu
    have hnil : u = [] := List.length_eq_zero.mp (Nat.le_zero.mp hu)
    exact ⟨[], by simp [hnil]⟩
  | succ n ih =>
    intro u hu
    match u, hu with
    | [], _ => exact ⟨[], by simp⟩
    | [a], _ =>
      match T, hT with
      | [], _ => exact ⟨[a], by simp [elongate]⟩
      | h :: T', hT =>
        have hh : h ≠ 0x30FC := hT h rfl
        exact ⟨[a], by simp [elongate, hh]⟩
    | a :: b :: rest, hu =>
      simp only [List.length_cons] at hu
      have happ : (a :: b :: rest) ++ T = a :: b :: (rest ++ T) := rfl
      rw [happ, elongate]
      split
      · obtain ⟨Z, hZ⟩ := ih rest (by omega)
        exact ⟨a :: a :: Z, by rw [hZ]; rfl⟩
      · obtain ⟨Z, hZ⟩ := ih (b :: rest) (by simp only [List.length_cons]; omega)
        refine ⟨a :: Z, ?_⟩
        rw [← List.cons_append, hZ]
        rfl

theorem isVowel_ne_mark {v : Nat} (hv : isVowel v = true) : v ≠ 0x30FC := by
  intro h
  subst h
  simp [isVowel] at hv

/-- The long-vowel rewrite on a run without "ー" that ends in a vowel and is
followed by "ー". -/
theorem elongate_mark (r0 : JSString) (v : Nat) (hr : ∀ x ∈ r0, x ≠ 0x30FC)
    (hv : isVowel v = true) : elongate (r0 ++ [v, 0x30FC]) = r0 ++ [v, v] := by
  induction r0 with
  | nil => simp [elongate, hv]
  | cons a r0 ih =>
    have ih' := ih (fun x hx => hr x (List.mem_cons_of_mem _ hx))
    cases r0 with
    | nil =>
      have hne := isVowel_ne_mark hv
      simp only [List.cons_append, List.nil_append, elongate] at ih' ⊢
      simp [hne, hv]
    | cons b rest =>
      have hb : b ≠ 0x30FC := hr b (List.mem_cons_of_mem _ (List.mem_cons_self _ _))
      simp only [List.cons_append] at ih' ⊢
      rw [elongate]
      simp [hb, ih']

/-! ## Trimming -/

theorem isWhiteSpace_of_isLower {c : Nat} (hc : isLower c = true) :
    isWhiteSpace c = false := by
  simp only [isLower, Bool.and_eq_true, decide_eq_true_eq] at hc
  simp only [isWhiteSpace, Bool.or_eq_false_iff, decide_eq_false_iff_not, beq_eq_false_iff_ne]
  omega

theorem isLower_of_isVowel {c : Nat} (hc : isVowel c = true) : isLower c = true := by
  simp only [isVowel, Bool.or_eq_true, beq_iff_eq] at hc
  simp only [isLower, Bool.and_eq_true, decide_eq_true_eq]
  omega

/-- A non-empty run of lowercase letters at the end of the text survives `trim`. -/
theorem trim_suffix (T : JSString) (hne : T ≠ []) (hT : ∀ x ∈ T, isLower x = true)
    (Z : JSString) : T <:+ trim (Z ++ T) := by
  unfold trim
  have hstart : ∃ Z', (Z ++ T).dropWhile isWhiteSpace = Z' ++ T := by
    induction Z with
    | nil =>
      refine ⟨[], ?_⟩
      match T, hne, hT with
      | c :: T', _, hT =>
        have := isWhiteSpace_of_isLower (hT c (List.mem_cons_self _ _))
        simp [List.dropWhile, this]
    | cons z Z ih =>
      by_cases hz : isWhiteSpace z = true
      · obtain ⟨Z', hZ'⟩ := ih
        exact ⟨Z', by simp [List.dropWhile, hz, hZ']⟩
      · exact ⟨z :: Z, by simp [List.dropWhile, hz]⟩
  obtain ⟨Z', hZ'⟩ := hstart
  rw [hZ']
  obtain ⟨T0, t, hTt⟩ : ∃ T0 t, T = T0 ++ [t] :=
    ⟨T.dropLast, T.getLast hne, (List.dropLast_append_getLast hne).symm⟩
  have ht : isWhiteSpace t = false :=
    isWhiteSpace_of_isLower (hT t (by rw [hTt]; simp))
  rw [hTt, ← List.append_assoc, List.rdropWhile_concat_neg _ _ _ (by simp [ht])]
  exact ⟨Z' ++ T0 |>.take Z'.length, by simp⟩

/-! ## Shapes of the entries, unpacked -/

theorem value_shape {k r : JSString} (h : ROMAJI_MAP k = some r) :
    r ≠ [] ∧ (∀ x ∈ r, x ≠ 0x3063 ∧ x ≠ 0x30FC) ∧
      ((∀ x ∈ r, isLower x = true) ∨
        (k.length = 1 ∧ (∀ c, r.head? = some c → isLower c = false) ∧
          (∀ v, r.getLast? = some v → isVowel v = false))) := by
  have hs := table_valShape _ (mem_of_ROMAJI_MAP h)
  simp only [valShape, Bool.and_eq_true, Bool.not_eq_true', List.isEmpty_eq_false,
    List.all_eq_true, bne_iff_ne, ne_eq, Bool.or_eq_true, beq_iff_eq] at hs
  obtain ⟨⟨hne, hmarks⟩, hshape⟩ := hs
  refine ⟨hne, hmarks, ?_⟩
  rcases hshape with hl | ⟨⟨hk, hhead⟩, hlast⟩
  · exact Or.inl hl
  · refine Or.inr ⟨hk, ?_, ?_⟩
    · intro c hc
      rw [hc] at hhead
      simpa using hhead
    · intro v hv
      rw [hv] at hlast
      simpa using hlast

theorem lower_ne_sokuon {x : Nat} (hx : isLower x = true) : x ≠ 0x3063 := by
  simp only [isLower, Bool.and_eq_true, decide_eq_true_eq] at hx
  omega

theorem lower_ne_mark {x : Nat} (hx : isLower x = true) : x ≠ 0x30FC := by
  simp only [isLower, Bool.and_eq_true, decide_eq_true_eq] at hx
  omega

/-- A non-empty run of lowercase letters at the end of the text is still at
the end after the long-vowel rewrite and `trim`. -/
theorem elongate_trim_suffix (T : JSString) (hne : T ≠ [])
    (hT : ∀ x ∈ T, isLower x = true) (Z : JSString) :
    T <:+ trim (elongate (Z ++ T)) := by
  have hhead : ∀ h, T.head? = some h → h ≠ 0x30FC := by
    intro h hh
    exact lower_ne_mark (hT h (List.mem_of_mem_head? hh))
  obtain ⟨Z', hZ'⟩ := elongate_sync T hhead Z.length Z (Nat.le_refl _)
  rw [hZ', elongate_fix T (fun x hx => lower_ne_mark (hT x hx))]
  exact trim_suffix T hne hT Z'

/-- A non-empty run of lowercase letters at the end of the text is still at
the end after both rewrites and `trim`. -/
theorem post_suffix (T : JSString) (hne : T ≠ [])
    (hT : ∀ x ∈ T, isLower x = true) (X : JSString) :
    T <:+ trim (elongate (geminate (X ++ T))) := by
  obtain ⟨Z, hZ⟩ :=
    geminate_suffix T (fun x hx => lower_ne_sokuon (hT x hx)) X.length X (Nat.le_refl _)
  rw [hZ]
  exact elongate_trim_suffix T hne hT Z

/-! ## The transliteration -/

/-- C4: digraph precedence at any position: for every string `w` and every key
`d` of `ROMAJI_MAP` of two code units, `toRomaji(w + d)` ends with
`ROMAJI_MAP[d]`; there are 33 such keys, and `toRomaji("きゃ")` is "kya". -/
theorem toRomaji_digraph :
    (∀ w d r : JSString, ROMAJI_MAP d = some r → d.length = 2 →
      r <:+ toRomaji (w ++ d)) ∧
    (romajiTable.filter fun e => e.1.length == 2).length = 33 ∧
    toRomaji (utf16 "きゃ") = utf16 "kya" := by
  refine ⟨?_, by decide!, by decide⟩
  intro w d r hd hlen
  obtain ⟨hne, -, hshape⟩ := value_shape hd
  have hlower : ∀ x ∈ r, isLower x = true := by
    rcases hshape with hl | ⟨hk, -, -⟩
    · exact hl
    · omega
  have hmem := mem_of_ROMAJI_MAP hd
  have hkey := table_keyShape _ hmem
  have htr : translit d = r := table_translit_key _ hmem
  have hhead : ∀ h, d.head? = some h → isSmallY h = false := by
    match d, hlen, hkey with
    | [d0, d1], _, hkey =>
      intro h hh
      simp only [List.head?_cons, Option.some.injEq] at hh
      subst hh
      simp only [keyShape, Bool.and_eq_true, Bool.not_eq_true'] at hkey
      exact hkey.1
  obtain ⟨X, hX⟩ := translit_sync d hhead w.length w (Nat.le_refl _)
  rw [toRomaji_eq, hX, htr]
  exact post_suffix r hne hlower X

theorem toRomaji_digraph_witness :
    ROMAJI_MAP (utf16 "しゃ") = some (utf16 "sha") ∧ (utf16 "しゃ").length = 2 ∧
    utf16 "sha" <:+ toRomaji (utf16 "きっ" ++ utf16 "しゃ") :=
  ⟨by decide, by decide,
    toRomaji_digraph.1 (utf16 "きっ") (utf16 "しゃ") (utf16 "sha") (by decide) (by decide)⟩

/-- C5: gemination: for every string `u` and every key `k` of `ROMAJI_MAP`
whose romaji `r` begins with a letter `c` (which excludes the punctuation
keys), `toRomaji(u + "っ" + k)` ends with `c + r`: the "っ" is dropped and exactly
the first letter of the romaji is doubled; "っしゃ" gives "ssha" and "きっぷ"
gives "kippu". -/
theorem toRomaji_sokuon :
    (∀ (u k r' : JSString) (c : Nat), ROMAJI_MAP k = some (c :: r') → isLower c = true →
      (c :: c :: r') <:+ toRomaji (u ++ 0x3063 :: k)) ∧
    toRomaji (utf16 "っしゃ") = utf16 "ssha" ∧
    toRomaji (utf16 "きっぷ") = utf16 "kippu" := by
  refine ⟨?_, by decide, by decide⟩
  intro u k r' c hk hc
  obtain ⟨-, hmarks, hshape⟩ := value_shape hk
  have hlower : ∀ x ∈ c :: r', isLower x = true := by
    rcases hshape with hl | ⟨-, hhead, -⟩
    · exact hl
    · have := hhead c rfl
      rw [hc] at this
      cases this
  have hmem := mem_of_ROMAJI_MAP hk
  have htr : translit (0x3063 :: k) = 0x3063 :: c :: r' := table_translit_sokuon _ hmem
  have hhead : ∀ h, (0x3063 :: k).head? = some h → isSmallY h = false := by
    intro h hh
    simp only [List.head?_cons, Option.some.injEq] at hh
    subst hh
    decide
  obtain ⟨X, hX⟩ := translit_sync (0x3063 :: k) hhead u.length u (Nat.le_refl _)
  have hhead2 : ∀ h, (0x3063 :: c :: r').head? = some h → isLower h = false := by
    intro h hh
    simp only [List.head?_cons, Option.some.injEq] at hh
    subst hh
    decide
  obtain ⟨Z, hZ⟩ := geminate_sync (0x3063 :: c :: r') hhead2 X.length X (Nat.le_refl _)
  have hgem : geminate (0x3063 :: c :: r') = c :: c :: r' := by
    rw [geminate]
    simp [hc, geminate_fix r' (fun x hx => (hmarks x (List.mem_cons_of_mem _ hx)).1)]
  rw [toRomaji_eq, hX, htr, hZ, hgem]
  apply elongate_trim_suffix (c :: c :: r') (by simp)
  intro x hx
  rcases List.mem_cons.mp hx with rfl | hx
  · exact hc
  · exact hlower x hx

theorem toRomaji_sokuon_witness :
    ROMAJI_MAP (utf16 "ちゃ") = some (0x63 :: utf16 "ha") ∧ isLower 0x63 = true ∧
    (0x63 :: 0x63 :: utf16 "ha") <:+ toRomaji (utf16 "お" ++ 0x3063 :: utf16 "ちゃ") :=
  ⟨by decide, by decide,
    toRomaji_sokuon.1 (utf16 "お") (utf16 "ちゃ") (utf16 "ha") 0x63 (by decide) (by decide)⟩

/-- C6: long-vowel elongation: for every string `u` and every key `k` of
`ROMAJI_MAP` whose romaji `r` ends in a vowel `v`, `toRomaji(u + k + "ー")` ends
with `r + v`: the vowel is doubled and the mark is dropped; `toRomaji("とー")`
is "too". -/
theorem toRomaji_long_vowel :
    (∀ (u k r0 : JSString) (v : Nat), ROMAJI_MAP k = some (r0 ++ [v]) → isVowel v = true →
      (r0 ++ [v, v]) <:+ toRomaji (u ++ k ++ [0x30FC])) ∧
    toRomaji (utf16 "とー") = utf16 "too" := by
  refine ⟨?_, by decide⟩
  intro u k r0 v hk hv
  obtain ⟨-, hmarks, hshape⟩ := value_shape hk
  have hlower : ∀ x ∈ r0 ++ [v], isLower x = true := by
    rcases hshape with hl | ⟨-, -, hlast⟩
    · exact hl
    · have := hlast v (by simp)
      rw [hv] at this
      cases this
  have hmem := mem_of_ROMAJI_MAP hk
  have hkey := table_keyShape _ hmem
  have htr : translit (k ++ [0x30FC]) = (r0 ++ [v]) ++ [0x30FC] :=
    table_translit_mark _ hmem
  have hhead : ∀ h, (k ++ [0x30FC]).head? = some h → isSmallY h = false := by
    match k, hkey with
    | [a], hkey =>
      intro h hh
      simp only [List.cons_append, List.head?_cons, Option.some.injEq] at hh
      subst hh
      simpa [keyShape] using hkey
    | [a, b], hkey =>
      intro h hh
      simp only [List.cons_append, List.head?_cons, Option.some.injEq] at hh
      subst hh
      simp only [keyShape, Bool.and_eq_true, Bool.not_eq_true'] at hkey
      exact hkey.1
  obtain ⟨X, hX⟩ := translit_sync (k ++ [0x30FC]) hhead u.length u (Nat.le_refl _)
  have hT : ∀ x ∈ (r0 ++ [v]) ++ [0x30FC], x ≠ 0x3063 := by
    intro x hx
    rcases List.mem_append.mp hx with hx | hx
    · exact (hmarks x hx).1
    · simp only [List.mem_singleton] at hx
      subst hx
      decide
  obtain ⟨Z, hZ⟩ := geminate_suffix _ hT X.length X (Nat.le_refl _)
  have hshape2 : (r0 ++ [v]) ++ [0x30FC] = r0 ++ [v, 0x30FC] := by simp
  have hhead2 : ∀ h, (r0 ++ [v, 0x30FC]).head? = some h → h ≠ 0x30FC := by
    intro h hh
    have hin : h ∈ r0 ++ [v] := by
      cases r0 with
      | nil =>
        simp only [List.nil_append, List.head?_cons, Option.some.injEq] at hh
        simp [hh]
      | cons a r0 =>
        simp only [List.cons_append, List.head?_cons, Option.some.injEq] at hh
        simp [hh]
    exact lower_ne_mark (hlower h hin)
  obtain ⟨Z', hZ'⟩ := elongate_sync _ hhead2 Z.length Z (Nat.le_refl _)
  have hr0 : ∀ x ∈ r0, x ≠ 0x30FC := fun x hx => (hmarks x (by simp [hx])).2
  rw [toRomaji_eq, List.append_assoc, hX, htr, hZ, hshape2, hZ', elongate_mark r0 v hr0 hv]
  apply trim_suffix (r0 ++ [v, v]) (by simp)
  intro x hx
  apply hlower x
  simp only [List.mem_append, List.mem_cons, List.mem_singleton, List.not_mem_nil,
    or_false, or_self] at hx ⊢
  exact hx

theorem toRomaji_long_vowel_witness :
    ROMAJI_MAP (utf16 "きょ") = some (utf16 "ky" ++ [0x6F]) ∧ isVowel 0x6F = true ∧
    (utf16 "ky" ++ [0x6F, 0x6F]) <:+ toRomaji (utf16 "とう" ++ utf16 "きょ" ++ [0x30FC]) :=
  ⟨by decide, by decide,
    toRomaji_long_vowel.1 (utf16 "とう") (utf16 "きょ") (utf16 "ky") 0x6F (by decide)
      (by decide)⟩

set_option maxRecDepth 100000 in
theorem table_single_key :
    ∀ e ∈ romajiTable, e.1.length = 1 → e.1 ∉ punctuationKeys → toRomaji e.1 = e.2 := by
  decide!

/-- C7: for every key `k` of `ROMAJI_MAP` of one code unit other than the three
punctuation keys (the base rows, the voiced and semi-voiced rows and "ん"),
`toRomaji(k)` is `ROMAJI_MAP[k]`; "あ" gives "a", "か" gives "ka" and "し"
gives "shi". -/
theorem toRomaji_single_key :
    (∀ k r : JSString, ROMAJI_MAP k = some r → k.length = 1 → k ∉ punctuationKeys →
      toRomaji k = r) ∧
    toRomaji (utf16 "あ") = utf16 "a" ∧ toRomaji (utf16 "か") = utf16 "ka" ∧
    toRomaji (utf16 "し") = utf16 "shi" := by
  refine ⟨?_, by decide, by decide, by decide⟩
  intro k r hk hlen hp
  exact table_single_key _ (mem_of_ROMAJI_MAP hk) hlen hp

theorem toRomaji_single_key_witness :
    ROMAJI_MAP (utf16 "ぢ") = some (utf16 "ji") ∧ (utf16 "ぢ").length = 1 ∧
    utf16 "ぢ" ∉ punctuationKeys ∧ toRomaji (utf16 "ぢ") = utf16 "ji" :=
  ⟨by decide, by decide, by decide,
    toRomaji_single_key.1 (utf16 "ぢ") (utf16 "ji") (by decide) (by decide) (by decide)⟩

theorem trim_head (l : JSString) (x : Nat) (h : (trim l).head? = some x) :
    isWhiteSpace x = false := by
  unfold trim at h
  obtain ⟨t, ht⟩ := List.rdropWhile_prefix isWhiteSpace (l := l.dropWhile isWhiteSpace)
  have hd := List.head?_dropWhile_not isWhiteSpace l
  rw [← ht, List.head?_append, h] at hd
  simpa using hd

theorem trim_last (l : JSString) (x : Nat) (h : (trim l).getLast? = some x) :
    isWhiteSpace x = false := by
  unfold trim at h
  have hne : (l.dropWhile isWhiteSpace).rdropWhile isWhiteSpace ≠ [] := by
    intro hnil
    rw [hnil] at h
    cases h
  have := List.rdropWhile_last_not isWhiteSpace _ hne
  rw [List.getLast?_eq_getLast _ hne] at h
  simp only [Option.some.injEq] at h
  rw [h] at this
  simpa using this

theorem trim_of_clean (l : JSString)
    (hhead : ∀ x, l.head? = some x → isWhiteSpace x = false)
    (hlast : ∀ x, l.getLast? = some x → isWhiteSpace x = false) : trim l = l := by
  unfold trim
  have h1 : l.dropWhile isWhiteSpace = l := by
    cases l with
    | nil => rfl
    | cons a l => simp [List.dropWhile, hhead a rfl]
  rw [h1, List.rdropWhile_eq_self_iff]
  intro hne
  have := hlast _ (List.getLast?_eq_getLast l hne)
  simp [this]

theorem not_truthy_of_unit {a : Nat} (ha : 0xD800 ≤ a) (ha2 : a ≤ 0xDFFF) (l : JSString) :
    truthy (ROMAJI_MAP (a :: l)) = false := by
  cases hq : ROMAJI_MAP (a :: l) with
  | none => rfl
  | some r =>
    have := table_key_units _ (mem_of_ROMAJI_MAP hq)
    simp only [List.all_cons, Bool.and_eq_true, decide_eq_true_eq] at this
    omega

/-- C8, as stated, fails: the space U+0020 is not a key of `ROMAJI_MAP`, but
`toRomaji(" ")` is the empty string, because the result is trimmed. -/
theorem toRomaji_space :
    ROMAJI_MAP (encodeUnit 0x20) = none ∧ toRomaji (encodeUnit 0x20) = [] ∧
    toRomaji (encodeUnit 0x20) ≠ encodeUnit 0x20 := by decide

/-- C8, amended: for every code point `X` that is not a key of `ROMAJI_MAP` and
is not a white-space or line-terminator character, `toRomaji` of the string
made of `X` alone is that string unchanged; when `X` is such a character the
result is the empty string. -/
theorem toRomaji_pass_through (X : Nat) (hX : X ≤ 0x10FFFF)
    (hkey : ROMAJI_MAP (encodeUnit X) = none) :
    (isWhiteSpace X = false → toRomaji (encodeUnit X) = encodeUnit X) ∧
    (isWhiteSpace X = true → toRomaji (encodeUnit X) = []) := by
  rw [toRomaji_eq]
  by_cases hb : X < 0x10000
  · have he : encodeUnit X = [X] := by simp [encodeUnit, hb]
    rw [he] at hkey ⊢
    have ht : translit [X] = [X] := by simp [translit, hkey, truthy, orElse]
    rw [ht]
    constructor
    · intro hw
      simp [geminate, elongate, trim, List.dropWhile, List.rdropWhile, hw]
    · intro hw
      simp [geminate, elongate, trim, List.dropWhile, List.rdropWhile, hw]
  · have he : encodeUnit X =
        [0xD800 + (X - 0x10000) / 0x400, 0xDC00 + (X - 0x10000) % 0x400] := by
      simp [encodeUnit, hb]
    rw [he]
    generalize hhi : 0xD800 + (X - 0x10000) / 0x400 = hi
    generalize hlo : 0xDC00 + (X - 0x10000) % 0x400 = lo
    have hhi1 : 0xD800 ≤ hi := by omega
    have hhi2 : hi ≤ 0xDBFF := by omega
    have hlo1 : 0xDC00 ≤ lo := by omega
    have hlo2 : lo ≤ 0xDFFF := by omega
    have ht : translit [hi, lo] = [hi, lo] := by
      simp [translit, orElse, not_truthy_of_unit hhi1 (by omega),
        not_truthy_of_unit (by omega : 0xD800 ≤ lo) hlo2]
    have hg : geminate [hi, lo] = [hi, lo] := by
      have : hi ≠ 0x3063 := by omega
      simp [geminate, this]
    have hel : elongate [hi, lo] = [hi, lo] := by
      have : lo ≠ 0x30FC := by omega
      simp [elongate, this]
    have hwhi : isWhiteSpace hi = false := by
      simp only [isWhiteSpace, Bool.or_eq_false_iff, decide_eq_false_iff_not,
        beq_eq_false_iff_ne]
      omega
    have hwlo : isWhiteSpace lo = false := by
      simp only [isWhiteSpace, Bool.or_eq_false_iff, decide_eq_false_iff_not,
        beq_eq_false_iff_ne]
      omega
    have hwX : isWhiteSpace X = false := by
      simp only [isWhiteSpace, Bool.or_eq_false_iff, decide_eq_false_iff_not,
        beq_eq_false_iff_ne]
      omega
    rw [ht, hg, hel]
    constructor
    · intro
      apply trim_of_clean
      · intro x hx
        simp only [List.head?_cons, Option.some.injEq] at hx
        rw [← hx]
        exact hwhi
      · intro x hx
        simp only [List.getLast?_cons_cons, List.getLast?_singleton, Option.some.injEq] at hx
        rw [← hx]
        exact hwlo
    · intro hw
      rw [hwX] at hw
      cases hw

theorem toRomaji_pass_through_witness :
    0x58 ≤ 0x10FFFF ∧ ROMAJI_MAP (encodeUnit 0x58) = none ∧ isWhiteSpace 0x58 = false ∧
    toRomaji (encodeUnit 0x58) = encodeUnit 0x58 :=
  ⟨by decide, by decide, by decide,
    (toRomaji_pass_through 0x58 (by decide) (by decide)).1 (by decide)⟩

/-- C9: for every input, the result of `toRomaji` has no leading and no
trailing white-space character, so trimming it again changes nothing; this
covers inputs that begin with "（" or end with "、", whose table values are
padded: "（あ" gives "(a" and "あ、" gives "a,". -/
theorem toRomaji_trimmed :
    (∀ s : JSString,
      trim (toRomaji s) = toRomaji s ∧
      (∀ x, (toRomaji s).head? = some x → isWhiteSpace x = false) ∧
      (∀ x, (toRomaji s).getLast? = some x → isWhiteSpace x = false)) ∧
    toRomaji (utf16 "（あ") = utf16 "(a" ∧ toRomaji (utf16 "あ、") = utf16 "a," := by
  refine ⟨?_, by decide, by decide⟩
  intro s
  have hh : ∀ x, (toRomaji s).head? = some x → isWhiteSpace x = false :=
    fun x hx => trim_head _ x hx
  have hl : ∀ x, (toRomaji s).getLast? = some x → isWhiteSpace x = false :=
    fun x hx => trim_last _ x hx
  exact ⟨trim_of_clean _ hh hl, hh, hl⟩

theorem toRomaji_trimmed_witness :
    (toRomaji (utf16 "、あ（")).head? = some 0x2C ∧ isWhiteSpace 0x2C = false :=
  ⟨by decide, (toRomaji_trimmed.1 (utf16 "、あ（")).2.1 0x2C (by decide)⟩

/-! ## The classifier and the extractor -/

/-- C1: for every text without "【" (the empty text included), `isHiragana` is
true exactly when every code point of the text lies in U+3041..U+309F or is one
of "ー", "（", "）", "、"; in particular it is true of the empty text and of
"ー、（）" and false of "あいう123". -/
theorem isHiragana_without_bracket :
    (∀ text : JSString, 0x3010 ∉ text →
      (isHiragana text = true ↔ ∀ cp ∈ codePoints text, Accepted cp)) ∧
    isHiragana (utf16 "") = true ∧
    isHiragana (utf16 "ー、（）") = true ∧
    isHiragana (utf16 "あいう123") = false := by
  refine ⟨?_, by decide, by decide, by decide⟩
  intro text h
  have hinc : includes text (utf16 "【") = false := by
    rw [utf16_open]
    cases hq : includes text [0x3010] with
    | false => rfl
    | true => exact absurd ((includes_singleton _ _).mp hq) h
  rw [isHiragana_unfold, hinc]
  exact all_arrayFrom text

theorem isHiragana_without_bracket_witness :
    0x3010 ∉ utf16 "あいう" ∧
    (isHiragana (utf16 "あいう") = true ↔ ∀ cp ∈ codePoints (utf16 "あいう"), Accepted cp) :=
  ⟨by decide, isHiragana_without_bracket.1 (utf16 "あいう") (by decide)⟩

/-- C2, as stated, fails: in "【", line feed, "】【あ】" the text between the first
"【" and the first "】" after it is a line feed, which `isHiragana` rejects, yet
`isHiragana` accepts the whole text (the pattern matches "あ"). -/
theorem isHiragana_interior_line_feed :
    interior (utf16 "【" ++ [0x0A] ++ utf16 "】【あ】") = some [0x0A] ∧
    isHiragana (utf16 "【" ++ [0x0A] ++ utf16 "】【あ】") = true ∧
    isHiragana [0x0A] = false := by decide

/-- C2, amended: for every text that contains a "【" followed later by a "】",
with no line terminator between the first "【" and the first "】" after it,
`isHiragana` of the text equals `isHiragana` of the text strictly between the
two; what surrounds the bracket pair is ignored. -/
theorem isHiragana_bracket (text m : JSString) (h : interior text = some m)
    (hm : ∀ c ∈ m, isLineTerminator c = false) :
    isHiragana text = isHiragana m := by
  rw [isHiragana_unfold text, includes_open_of_interior h, regexMatch_of_interior h hm]
  rfl

theorem isHiragana_bracket_witness :
    interior (utf16 "漢字【あい】") = some (utf16 "あい") ∧
    isHiragana (utf16 "漢字【あい】") = isHiragana (utf16 "あい") :=
  ⟨by decide, isHiragana_bracket (utf16 "漢字【あい】") (utf16 "あい") (by decide) (by decide)⟩

/-- C3, as stated, fails: the text "【", line feed, "】" has a line feed between
its first "【" and the first "】" after it, but `extractHiragana` returns the
whole text unchanged. -/
theorem extractHiragana_line_feed :
    interior (utf16 "【" ++ [0x0A] ++ utf16 "】") = some [0x0A] ∧
    extractHiragana (utf16 "【" ++ [0x0A] ++ utf16 "】") = utf16 "【" ++ [0x0A] ++ utf16 "】" ∧
    extractHiragana (utf16 "【" ++ [0x0A] ++ utf16 "】") ≠ [0x0A] := by decide

/-- C3, amended: if the text contains a "【" followed later by a "】" and no line
terminator stands between the first "【" and the first "】" after it, then
`extractHiragana` returns exactly the text strictly between the two (possibly
empty); if the text has no "【" followed later by a "】", it is returned unchanged. -/
theorem extractHiragana_spec (text : JSString) :
    (∀ m, interior text = some m → (∀ c ∈ m, isLineTerminator c = false) →
      extractHiragana text = m) ∧
    (interior text = none → extractHiragana text = text) := by
  constructor
  · intro m h hm
    unfold extractHiragana
    rw [regexMatch_of_interior h hm]
  · intro h
    unfold extractHiragana
    rw [regexMatch_eq_none_of_interior h]

theorem extractHiragana_spec_witness :
    interior (utf16 "漢字【あい】") = some (utf16 "あい") ∧
    extractHiragana (utf16 "漢字【あい】") = utf16 "あい" :=
  ⟨by decide,
    (extractHiragana_spec (utf16 "漢字【あい】")).1 (utf16 "あい") (by decide) (by decide)⟩

/-- C10: `isHiragana` is total: for every text the recursion ends within
`str.length + 1` calls and returns a boolean, the same for every larger bound;
its only recursive call is on the captured interior, which is strictly shorter
than the text it was captured from. -/
theorem isHiragana_total (str : JSString) :
    (∃ b : Bool, isHiraganaFuel (str.length + 1) str = some b ∧ isHiragana str = b) ∧
    (∀ k, str.length < k → isHiraganaFuel k str = some (isHiragana str)) ∧
    (∀ m, regexMatch str = some m → m.length < str.length) := by
  obtain ⟨b, hb⟩ := isHiraganaFuel_isSome str.length str (Nat.le_refl _)
  have hval : isHiragana str = b := by simp [isHiragana, hb]
  refine ⟨⟨b, hb, hval⟩, ?_, fun m hm => regexMatch_length_lt hm⟩
  intro k hk
  rw [isHiraganaFuel_stable str.length str (Nat.le_refl _) k hk, hb, hval]

theorem isHiragana_total_witness :
    regexMatch (utf16 "漢字【あい】") = some (utf16 "あい") ∧
    (utf16 "あい").length < (utf16 "漢字【あい】").length :=
  ⟨by decide, (isHiragana_total (utf16 "漢字【あい】")).2.2 (utf16 "あい") (by decide)⟩

/-! ## Classifier and extractor, continued -/

theorem lazyDot_no_close {s m : JSString} (h : lazyDot s = some m) : 0x3011 ∉ m := by
  induction s generalizing m with
  | nil => simp [lazyDot] at h
  | cons c cs ih =>
    unfold lazyDot at h
    split at h
    · cases h
      simp
    · next hc =>
      split at h
      · cases h
      · cases hq : lazyDot cs with
        | none => simp [hq] at h
        | some q =>
          rw [hq] at h
          simp only [Option.map_some', Option.some.injEq] at h
          subst h
          intro hmem
          rcases List.mem_cons.mp hmem with h1 | h1
          · exact hc h1.symm
          · exact ih hq h1

/-- A captured interior contains no "】". -/
theorem regexMatch_no_close {s m : JSString} (h : regexMatch s = some m) : 0x3011 ∉ m := by
  induction s with
  | nil => simp [regexMatch] at h
  | cons c cs ih =>
    unfold regexMatch at h
    split at h
    · cases hq : lazyDot cs with
      | none =>
        rw [hq] at h
        exact ih h
      | some q =>
        rw [hq] at h
        cases h
        exact lazyDot_no_close hq
    · exact ih h

/-- A text without "】" has no match. -/
theorem regexMatch_eq_none_of_no_close {s : JSString} (h : 0x3011 ∉ s) :
    regexMatch s = none := by
  cases hq : regexMatch s with
  | none => rfl
  | some m =>
    obtain ⟨t, ht, hmem⟩ := regexMatch_some_interior hq
    exact absurd (afterFirstOpen_subset ht _ hmem) h

/-- A text without "【" has no match. -/
theorem regexMatch_eq_none_of_no_open {s : JSString} (h : 0x3010 ∉ s) :
    regexMatch s = none := by
  cases hq : regexMatch s with
  | none => rfl
  | some m =>
    obtain ⟨t, ht, -⟩ := regexMatch_some_interior hq
    rw [afterFirstOpen_eq_none.mpr h] at ht
    cases ht

/-- Without a match `isHiragana` is the per-code-point check of the text. -/
theorem isHiragana_of_no_match {s : JSString} (h : regexMatch s = none) :
    isHiragana s = (arrayFrom s).all hiraganaCh := by
  rw [isHiragana_unfold, h]
  split <;> rfl

/-- The classifier is the per-code-point check of what the extractor returns. -/
theorem isHiragana_eq_check_extract (s : JSString) :
    isHiragana s = (arrayFrom (extractHiragana s)).all hiraganaCh := by
  unfold extractHiragana
  cases hq : regexMatch s with
  | none => exact isHiragana_of_no_match hq
  | some m =>
    have hopen : includes s (utf16 "【") = true := by
      rw [utf16_open, includes_singleton]
      by_contra hno
      rw [regexMatch_eq_none_of_no_open hno] at hq
      cases hq
    rw [isHiragana_unfold, hopen, hq]
    simp only [if_true]
    exact isHiragana_of_no_match (regexMatch_eq_none_of_no_close (regexMatch_no_close hq))

/-- A code unit that is not a surrogate is a code point of every string it occurs in. -/
theorem mem_codePoints_of_mem (c : Nat) (hc : c < 0xD800) (s : JSString) (h : c ∈ s) :
    c ∈ codePoints s := by
  induction s using codePoints.induct with
  | case1 => simp at h
  | case2 a => simpa [codePoints] using h
  | case3 a b rest hab ih =>
    simp only [Bool.and_eq_true, isHighSurrogate, isLowSurrogate, decide_eq_true_eq] at hab
    rw [codePoints]
    simp only [isHighSurrogate, isLowSurrogate, Bool.and_eq_true, decide_eq_true_eq, hab,
      and_self, if_true]
    rcases List.mem_cons.mp h with h1 | h1
    · omega
    · rcases List.mem_cons.mp h1 with h2 | h2
      · omega
      · exact List.mem_cons_of_mem _ (ih h2)
  | case4 a b rest hab ih =>
    rw [codePoints, if_neg hab]
    rcases List.mem_cons.mp h with h1 | h1
    · rw [h1]
      exact List.mem_cons_self _ _
    · exact List.mem_cons_of_mem _ (ih h1)

/-- When every code point is an accepted one, the code units are the code points. -/
theorem accepted_units (s : JSString) (h : ∀ cp ∈ codePoints s, Accepted cp) :
    ∀ x ∈ s, Accepted x := by
  induction s using codePoints.induct with
  | case1 => simp
  | case2 a => simpa [codePoints] using h
  | case3 a b rest hab ih =>
    rw [codePoints, if_pos hab] at h
    exact absurd (h _ (List.mem_cons_self _ _)) (not_accepted_astral a b)
  | case4 a b rest hab ih =>
    rw [codePoints, if_neg hab] at h
    intro x hx
    rcases List.mem_cons.mp hx with h1 | h1
    · rw [h1]
      exact h a (List.mem_cons_self _ _)
    · exact ih (fun cp hcp => h cp (List.mem_cons_of_mem _ hcp)) x h1

theorem afterFirstOpen_append (p t : JSString) (hp : 0x3010 ∉ p) :
    afterFirstOpen (p ++ 0x3010 :: t) = some t := by
  induction p with
  | nil => simp [afterFirstOpen]
  | cons c cs ih =>
    have hc : c ≠ 0x3010 := fun h => hp (by simp [h])
    have hcs : 0x3010 ∉ cs := fun h => hp (List.mem_cons_of_mem _ h)
    simp only [List.cons_append, afterFirstOpen, if_neg hc]
    exact ih hcs

/-- C11: unclosed bracket: for every text that contains "【" but has no "】" after
any "【", no extraction happens: `isHiragana` is the per-code-point check of the
whole original text, which is false because "【" is not an accepted code point,
and `extractHiragana` returns the text unchanged. -/
theorem unclosed_bracket (text : JSString) (hopen : 0x3010 ∈ text)
    (hclose : interior text = none) :
    isHiragana text = (arrayFrom text).all hiraganaCh ∧
    (isHiragana text = true ↔ ∀ cp ∈ codePoints text, Accepted cp) ∧
    isHiragana text = false ∧
    extractHiragana text = text := by
  have hno := regexMatch_eq_none_of_interior hclose
  have h1 := isHiragana_of_no_match hno
  have h2 : isHiragana text = true ↔ ∀ cp ∈ codePoints text, Accepted cp := by
    rw [h1]
    exact all_arrayFrom text
  refine ⟨h1, h2, ?_, by simp [extractHiragana, hno]⟩
  cases hq : isHiragana text with
  | false => rfl
  | true =>
    have hacc := h2.mp hq _ (mem_codePoints_of_mem 0x3010 (by decide) text hopen)
    revert hacc
    decide

theorem unclosed_bracket_witness :
    0x3010 ∈ utf16 "あ】【い" ∧ interior (utf16 "あ】【い") = none ∧
    isHiragana (utf16 "あ】【い") = false ∧
    extractHiragana (utf16 "あ】【い") = utf16 "あ】【い" :=
  ⟨by decide, by decide,
    (unclosed_bracket (utf16 "あ】【い") (by decide) (by decide)).2.2.1,
    (unclosed_bracket (utf16 "あ】【い") (by decide) (by decide)).2.2.2⟩

/-- C17: classifier and extractor agree: for every text, `isHiragana` is true
exactly when every code point of `extractHiragana` of the text lies in
U+3041..U+309F or is one of "ー", "（", "）", "、"; so an accepted entry hands
`toRomaji` only such code units; and the recursion never nests more than once:
a captured interior contains no "】", has no match of its own, and two calls
always reach the result. -/
theorem isHiragana_iff_extract (s : JSString) :
    (isHiragana s = true ↔ ∀ cp ∈ codePoints (extractHiragana s), Accepted cp) ∧
    (isHiragana s = true → ∀ x ∈ extractHiragana s, Accepted x) ∧
    (∀ m, regexMatch s = some m → 0x3011 ∉ m ∧ regexMatch m = none) ∧
    isHiraganaFuel 2 s = some (isHiragana s) := by
  have h1 : isHiragana s = true ↔ ∀ cp ∈ codePoints (extractHiragana s), Accepted cp := by
    rw [isHiragana_eq_check_extract]
    exact all_arrayFrom _
  have h3 : ∀ m, regexMatch s = some m → 0x3011 ∉ m ∧ regexMatch m = none :=
    fun m hm => ⟨regexMatch_no_close hm, regexMatch_eq_none_of_no_close (regexMatch_no_close hm)⟩
  refine ⟨h1, fun h => accepted_units _ (h1.mp h), h3, ?_⟩
  rw [isHiragana_unfold]
  simp only [isHiraganaFuel]
  split
  · cases hq : regexMatch s with
    | none => rfl
    | some m =>
      simp only [(h3 m hq).2, isHiragana_of_no_match (h3 m hq).2]
      split <;> rfl
  · rfl

theorem isHiragana_iff_extract_witness :
    regexMatch (utf16 "漢字【あい】") = some (utf16 "あい") ∧
    isHiragana (utf16 "漢字【あい】") = true ∧
    (∀ x ∈ extractHiragana (utf16 "漢字【あい】"), Accepted x) ∧
    regexMatch (utf16 "あい") = none :=
  ⟨by decide, by decide,
    (isHiragana_iff_extract (utf16 "漢字【あい】")).2.1 (by decide),
    ((isHiragana_iff_extract (utf16 "漢字【あい】")).2.2.1 (utf16 "あい") (by decide)).2⟩

/-- C18: an empty annotation is accepted: for every string `p` without "【" and
every string `q`, `isHiragana(p + "【】" + q)` is true whatever `p` and `q`
contain, `extractHiragana(p + "【】" + q)` is the empty string, and
`toRomaji("")` is the empty string. -/
theorem empty_brackets (p q : JSString) (hp : 0x3010 ∉ p) :
    isHiragana (p ++ utf16 "【】" ++ q) = true ∧
    extractHiragana (p ++ utf16 "【】" ++ q) = [] ∧
    toRomaji [] = [] := by
  have hlit : utf16 "【】" = [0x3010, 0x3011] := by decide
  have hint : interior (p ++ utf16 "【】" ++ q) = some [] := by
    rw [hlit]
    have : p ++ [0x3010, 0x3011] ++ q = p ++ 0x3010 :: (0x3011 :: q) := by simp
    rw [this, interior, afterFirstOpen_append p _ hp]
    simp [uptoFirstClose]
  have hmatch : regexMatch (p ++ utf16 "【】" ++ q) = some [] :=
    regexMatch_of_interior hint (by simp)
  refine ⟨?_, ?_, by decide⟩
  · rw [isHiragana_unfold, includes_open_of_interior hint, hmatch]
    show isHiragana [] = true
    decide
  · unfold extractHiragana
    rw [hmatch]

theorem empty_brackets_witness :
    0x3010 ∉ utf16 "漢字" ∧
    isHiragana (utf16 "漢字" ++ utf16 "【】" ++ utf16 "abc") = true ∧
    extractHiragana (utf16 "漢字" ++ utf16 "【】" ++ utf16 "abc") = [] :=
  ⟨by decide, (empty_brackets (utf16 "漢字") (utf16 "abc") (by decide)).1,
    (empty_brackets (utf16 "漢字") (utf16 "abc") (by decide)).2.1⟩

/-! ## The table as data -/

set_option maxRecDepth 100000 in
theorem table_key_points :
    ∀ e ∈ romajiTable,
      ((codePoints e.1).length = 1 ∨ (codePoints e.1).length = 2) ∧
      (e.1 ∈ punctuationKeys ∨ ∀ cp ∈ codePoints e.1, inHiraganaBlock cp = true) := by
  decide!

/-- C15, as stated, fails: "（" is a key of `ROMAJI_MAP` and its only code point,
U+FF08, lies outside U+3041..U+309F. -/
theorem key_outside_hiragana :
    ROMAJI_MAP (utf16 "（") = some (utf16 " (") ∧ codePoints (utf16 "（") = [0xFF08] ∧
    inHiraganaBlock 0xFF08 = false := by decide

/-- C15, amended: every key of `ROMAJI_MAP` consists of exactly 1 or 2 code
points, and every one of those code points is a hiragana code point
(U+3041..U+309F) unless the key is one of the three punctuation keys "（", "）",
"、", each of which is a single code point outside that range. -/
theorem key_invariant (k r : JSString) (h : ROMAJI_MAP k = some r) :
    ((codePoints k).length = 1 ∨ (codePoints k).length = 2) ∧
    (k ∈ punctuationKeys ∨ ∀ cp ∈ codePoints k, inHiraganaBlock cp = true) ∧
    (k ∈ punctuationKeys →
      (codePoints k).length = 1 ∧ ∀ cp ∈ codePoints k, inHiraganaBlock cp = false) := by
  have hp : ∀ k' ∈ punctuationKeys,
      (codePoints k').length = 1 ∧ ∀ cp ∈ codePoints k', inHiraganaBlock cp = false := by
    decide
  exact ⟨(table_key_points _ (mem_of_ROMAJI_MAP h)).1,
    (table_key_points _ (mem_of_ROMAJI_MAP h)).2, hp k⟩

theorem key_invariant_witness :
    ROMAJI_MAP (utf16 "きゃ") = some (utf16 "kya") ∧
    (codePoints (utf16 "きゃ")).length = 2 ∧
    ∀ cp ∈ codePoints (utf16 "きゃ"), inHiraganaBlock cp = true :=
  ⟨by decide, by decide,
    ((key_invariant (utf16 "きゃ") (utf16 "kya") (by decide)).2.1).resolve_left (by decide)⟩

/-- C16, as stated, fails: the table has 25 voiced and semi-voiced entries (five
rows of five), not 20, and 107 entries in total, not 102. -/
theorem table_not_102 :
    (romajiTable.filter isVoicedEntry).length = 25 ∧ romajiTable.length = 107 ∧
    ¬ ((romajiTable.filter isVoicedEntry).length = 20 ∨ romajiTable.length = 102) := by
  decide!

/-- C16, amended: `ROMAJI_MAP` has exactly 45 base-syllable entries, 25 voiced
and semi-voiced entries (g, z, d, b, p rows), 33 two-character digraph entries,
the entry "ん"→"n", and the three punctuation entries "（"→" (", "）"→")",
"、"→", ", and no other entries: 107 keys in total, all distinct. -/
theorem table_composition :
    (romajiTable.filter isBaseEntry).length = 45 ∧
    (romajiTable.filter isVoicedEntry).length = 25 ∧
    (romajiTable.filter isDigraphEntry).length = 33 ∧
    (romajiTable.filter isNasalEntry).length = 1 ∧
    (romajiTable.filter isPunctuationEntry).length = 3 ∧
    ROMAJI_MAP (utf16 "ん") = some (utf16 "n") ∧
    ROMAJI_MAP (utf16 "（") = some (utf16 " (") ∧
    ROMAJI_MAP (utf16 "）") = some (utf16 ")") ∧
    ROMAJI_MAP (utf16 "、") = some (utf16 ", ") ∧
    (romajiTable.filter fun e =>
      !(isBaseEntry e || isVoicedEntry e || isDigraphEntry e || isNasalEntry e
        || isPunctuationEntry e)).length = 0 ∧
    romajiTable.length = 107 ∧
    (romajiTable.map Prod.fst).Nodup := by
  decide!

/-! ## What the two rewrites leave behind -/

theorem chain_of_forall_within {R : Nat → Nat → Prop} (l : JSString)
    (h : ∀ a b, [a, b] <:+: l → R a b) : List.Chain' R l :=
  (List.chain'_isInfix l).imp h

theorem rel_of_chain_within {R : Nat → Nat → Prop} {l : JSString} (h : List.Chain' R l)
    {a b : Nat} (hab : [a, b] <:+: l) : R a b := by
  obtain ⟨p, q, rfl⟩ := hab
  exact List.chain'_pair.mp h.left_of_append.right_of_append

theorem chain_of_forall_ne (m : Nat) (l : JSString) (h : ∀ x ∈ l, x ≠ m) :
    List.Chain' (fun a b => ¬ (a = m ∧ b = m)) l := by
  apply chain_of_forall_within
  rintro a b ⟨p, q, hpq⟩ ⟨ha, -⟩
  exact h a (by rw [← hpq]; simp) ha

/-- A piece without the code unit `m` in front of a text without "mm". -/
theorem chain_piece (m : Nat) (r T : JSString) (hr : ∀ x ∈ r, x ≠ m)
    (hT : List.Chain' (fun a b => ¬ (a = m ∧ b = m)) T) :
    List.Chain' (fun a b => ¬ (a = m ∧ b = m)) (r ++ T) := by
  refine List.chain'_append.mpr ⟨chain_of_forall_ne m r hr, hT, ?_⟩
  rintro x hx y - ⟨hxm, -⟩
  exact hr x (List.mem_of_mem_getLast? hx) hxm

theorem truthy_value {k : JSString} (h : truthy (ROMAJI_MAP k) = true) :
    ∃ c r, ROMAJI_MAP k = some (c :: r) := by
  cases hq : ROMAJI_MAP k with
  | none => simp [hq, truthy] at h
  | some v =>
    cases v with
    | nil => simp [hq, truthy] at h
    | cons c r => exact ⟨c, r, rfl⟩

/-- The loop keeps a text free of "mm" free of it when no value of the table
contains `m`, and its output begins with `m` only when the input does. -/
theorem translit_no_double (m : Nat)
    (hm : ∀ k r, ROMAJI_MAP k = some r → ∀ x ∈ r, x ≠ m) (s : JSString)
    (hs : List.Chain' (fun a b => ¬ (a = m ∧ b = m)) s) :
    List.Chain' (fun a b => ¬ (a = m ∧ b = m)) (translit s) ∧
      ((translit s).head? = some m → s.head? = some m) := by
  induction s using translit.induct with
  | case1 => simp [translit]
  | case2 a ht =>
    obtain ⟨c, r, hv⟩ := truthy_value ht
    have hr := hm _ _ hv
    rw [translit, if_pos ht, hv, Option.getD_some]
    refine ⟨chain_of_forall_ne m _ hr, ?_⟩
    intro hh
    have hcm : c = m := by simpa using hh
    exact absurd hcm (hr c (List.mem_cons_self _ _))
  | case3 a ht =>
    simp [translit, ht, orElse]
  | case4 a b rest ht ih =>
    obtain ⟨c, r, hv⟩ := truthy_value ht
    have hr := hm _ _ hv
    have hrest : List.Chain' (fun a b => ¬ (a = m ∧ b = m)) rest := hs.tail.tail
    rw [translit, if_pos ht, hv, Option.getD_some]
    refine ⟨chain_piece m _ _ hr (ih hrest).1, ?_⟩
    intro hh
    have hcm : c = m := by simpa using hh
    exact absurd hcm (hr c (List.mem_cons_self _ _))
  | case5 a b rest ht ih =>
    have hrest : List.Chain' (fun a b => ¬ (a = m ∧ b = m)) (b :: rest) := hs.tail
    obtain ⟨ih1, ih2⟩ := ih hrest
    rw [translit, if_neg ht]
    by_cases h1 : truthy (ROMAJI_MAP [a]) = true
    · obtain ⟨c, r, hv⟩ := truthy_value h1
      have hr := hm _ _ hv
      rw [orElse, if_pos h1, hv, Option.getD_some]
      refine ⟨chain_piece m _ _ hr ih1, ?_⟩
      intro hh
      have hcm : c = m := by simpa using hh
      exact absurd hcm (hr c (List.mem_cons_self _ _))
    · simp only [orElse, h1, List.singleton_append]
      refine ⟨List.chain'_cons'.mpr ⟨?_, ih1⟩, ?_⟩
      · rintro y hy ⟨ha, hym⟩
        have hb : (b :: rest).head? = some m := ih2 (by rw [← hym]; exact hy)
        simp only [List.head?_cons, Option.some.injEq] at hb
        exact hs.rel_head ⟨ha, hb⟩
      · intro hh
        simpa using hh

/-- The sokuon rewrite keeps a text free of "mm" free of it, for `m` outside
`[a-z]`, and its output begins with `m` only when the input does. -/
theorem geminate_no_double (m : Nat) (hm : isLower m = false) (l : JSString)
    (hl : List.Chain' (fun a b => ¬ (a = m ∧ b = m)) l) :
    List.Chain' (fun a b => ¬ (a = m ∧ b = m)) (geminate l) ∧
      ((geminate l).head? = some m → l.head? = some m) := by
  induction l using geminate.induct with
  | case1 => simp [geminate]
  | case2 a => simp [geminate]
  | case3 a b rest hab ih =>
    have hb : b ≠ m := by
      intro h
      rw [h, hm] at hab
      exact absurd hab.2 (by simp)
    obtain ⟨ih1, -⟩ := ih hl.tail.tail
    rw [geminate, if_pos hab]
    refine ⟨List.chain'_cons.mpr ⟨fun h => hb h.1, List.chain'_cons'.mpr ⟨?_, ih1⟩⟩, ?_⟩
    · rintro y - ⟨h, -⟩
      exact hb h
    · intro hh
      simp only [List.head?_cons, Option.some.injEq] at hh
      exact absurd hh hb
  | case4 a b rest hab ih =>
    obtain ⟨ih1, ih2⟩ := ih hl.tail
    rw [geminate, if_neg hab]
    refine ⟨List.chain'_cons'.mpr ⟨?_, ih1⟩, ?_⟩
    · rintro y hy ⟨ha, hym⟩
      have hb : (b :: rest).head? = some m := ih2 (by rw [← hym]; exact hy)
      simp only [List.head?_cons, Option.some.injEq] at hb
      exact hl.rel_head ⟨ha, hb⟩
    · intro hh
      simpa using hh

theorem elongate_head (l : JSString) : (elongate l).head? = l.head? := by
  match l with
  | [] => rfl
  | [a] => rfl
  | a :: b :: rest =>
    rw [elongate]
    split <;> rfl

/-- On a text without "ーー" the long-vowel rewrite leaves no vowel followed by "ー". -/
theorem elongate_no_vowel_mark (l : JSString)
    (hl : List.Chain' (fun a b => ¬ (a = 0x30FC ∧ b = 0x30FC)) l) :
    List.Chain' (fun a b => ¬ (isVowel a = true ∧ b = 0x30FC)) (elongate l) := by
  induction l using elongate.induct with
  | case1 => simp [elongate]
  | case2 a => simp [elongate]
  | case3 a b rest hab ih =>
    have ha : a ≠ 0x30FC := isVowel_ne_mark hab.1
    rw [elongate, if_pos hab]
    refine List.chain'_cons.mpr ⟨fun h => ha h.2, List.chain'_cons'.mpr ⟨?_, ih hl.tail.tail⟩⟩
    rintro y hy ⟨-, hym⟩
    rw [elongate_head] at hy
    have hb : b = 0x30FC := hab.2
    have h2 : List.Chain' (fun a b => ¬ (a = 0x30FC ∧ b = 0x30FC)) (b :: rest) := hl.tail
    exact h2.rel_head? hy ⟨hb, hym⟩
  | case4 a b rest hab ih =>
    rw [elongate, if_neg hab]
    refine List.chain'_cons'.mpr ⟨?_, ih hl.tail⟩
    intro y hy
    rw [elongate_head] at hy
    simp only [List.head?_cons, Option.mem_def, Option.some.injEq] at hy
    rw [← hy]
    exact hab

/-- On a text without "っっ" the sokuon rewrite leaves no "っ" followed by a
letter; its output begins like the input, or the input begins with "っ". -/
theorem geminate_no_sokuon_letter (l : JSString)
    (hl : List.Chain' (fun a b => ¬ (a = 0x3063 ∧ b = 0x3063)) l) :
    List.Chain' (fun a b => ¬ (a = 0x3063 ∧ isLower b = true)) (geminate l) ∧
      ((geminate l).head? = l.head? ∨ l.head? = some 0x3063) := by
  induction l using geminate.induct with
  | case1 => simp [geminate]
  | case2 a => simp [geminate]
  | case3 a b rest hab ih =>
    have hb : b ≠ 0x3063 := lower_ne_sokuon hab.2
    obtain ⟨ih1, -⟩ := ih hl.tail.tail
    rw [geminate, if_pos hab]
    refine ⟨List.chain'_cons.mpr ⟨fun h => hb h.1, List.chain'_cons'.mpr ⟨?_, ih1⟩⟩, ?_⟩
    · rintro y - ⟨h, -⟩
      exact hb h
    · right
      simp [hab.1]
  | case4 a b rest hab ih =>
    obtain ⟨ih1, ih2⟩ := ih hl.tail
    rw [geminate, if_neg hab]
    refine ⟨List.chain'_cons'.mpr ⟨?_, ih1⟩, Or.inl rfl⟩
    rintro y hy ⟨ha, hy2⟩
    rcases ih2 with h | h
    · rw [h] at hy
      simp only [List.head?_cons, Option.mem_def, Option.some.injEq] at hy
      exact hab ⟨ha, by rw [hy]; exact hy2⟩
    · simp only [List.head?_cons, Option.some.injEq] at h
      exact hl.rel_head ⟨ha, h⟩

/-- The long-vowel rewrite creates no "っ" followed by a letter. -/
theorem elongate_no_sokuon_letter (l : JSString)
    (hl : List.Chain' (fun a b => ¬ (a = 0x3063 ∧ isLower b = true)) l) :
    List.Chain' (fun a b => ¬ (a = 0x3063 ∧ isLower b = true)) (elongate l) := by
  induction l using elongate.induct with
  | case1 => simp [elongate]
  | case2 a => simp [elongate]
  | case3 a b rest hab ih =>
    have ha : a ≠ 0x3063 := lower_ne_sokuon (isLower_of_isVowel hab.1)
    rw [elongate, if_pos hab]
    refine List.chain'_cons.mpr ⟨fun h => ha h.1, List.chain'_cons'.mpr ⟨?_, ih hl.tail.tail⟩⟩
    rintro y - ⟨h, -⟩
    exact ha h
  | case4 a b rest hab ih =>
    rw [elongate, if_neg hab]
    refine List.chain'_cons'.mpr ⟨?_, ih hl.tail⟩
    intro y hy
    rw [elongate_head] at hy
    simp only [List.head?_cons, Option.mem_def, Option.some.injEq] at hy
    rw [← hy]
    exact hl.rel_head

theorem trim_within (l : JSString) : trim l <:+: l :=
  ( List.rdropWhile_prefix isWhiteSpace _).isInfix.trans
    (List.dropWhile_suffix isWhiteSpace).isInfix

/-- C12, as stated, fails: `toRomaji("あーー")` is "aaー", in which the letter "a"
is directly followed by "ー" (the text put in by the rewrite is not scanned again). -/
theorem toRomaji_double_mark :
    toRomaji (utf16 "あーー") = utf16 "aaー" ∧ isVowel 0x61 = true ∧
    [0x61, 0x30FC] <:+: toRomaji (utf16 "あーー") := by
  refine ⟨by decide, by decide, ⟨[0x61], [], by decide⟩⟩

/-- C12, amended: for every input string in which no "ー" directly follows
another "ー", `toRomaji` of it contains no occurrence of one of the letters a,
e, i, o, u immediately followed by "ー". -/
theorem toRomaji_no_vowel_mark (s : JSString) (hs : ¬ [0x30FC, 0x30FC] <:+: s)
    (v : Nat) (hv : isVowel v = true) : ¬ [v, 0x30FC] <:+: toRomaji s := by
  have h0 : List.Chain' (fun a b => ¬ (a = 0x30FC ∧ b = 0x30FC)) s := by
    apply chain_of_forall_within
    rintro a b hab ⟨ha, hb⟩
    rw [ha, hb] at hab
    exact hs hab
  have h1 := (translit_no_double 0x30FC
    (fun k r hk x hx => ((value_shape hk).2.1 x hx).2) s h0).1
  have h2 := (geminate_no_double 0x30FC (by decide) _ h1).1
  have h3 := elongate_no_vowel_mark _ h2
  intro hin
  rw [toRomaji_eq] at hin
  exact rel_of_chain_within h3 (hin.trans (trim_within _)) ⟨hv, rfl⟩

theorem toRomaji_no_vowel_mark_witness :
    ¬ [0x30FC, 0x30FC] <:+: utf16 "こーひー" ∧ isVowel 0x6F = true ∧
    ¬ [0x6F, 0x30FC] <:+: toRomaji (utf16 "こーひー") :=
  ⟨by decide, by decide, toRomaji_no_vowel_mark (utf16 "こーひー") (by decide) 0x6F (by decide)⟩

/-- C13, as stated, fails: `toRomaji("っっか")` is "っkka", in which "っ" is
directly followed by the letter "k". -/
theorem toRomaji_double_sokuon :
    toRomaji (utf16 "っっか") = utf16 "っkka" ∧ isLower 0x6B = true ∧
    [0x3063, 0x6B] <:+: toRomaji (utf16 "っっか") := by
  refine ⟨by decide, by decide, ⟨[], [0x6B, 0x61], by decide⟩⟩

/-- C13, amended: for every input string in which no "っ" directly follows
another "っ", `toRomaji` of it contains no occurrence of "っ" immediately
followed by a lowercase Latin letter a-z. -/
theorem toRomaji_no_sokuon_letter (s : JSString) (hs : ¬ [0x3063, 0x3063] <:+: s)
    (c : Nat) (hc : isLower c = true) : ¬ [0x3063, c] <:+: toRomaji s := by
  have h0 : List.Chain' (fun a b => ¬ (a = 0x3063 ∧ b = 0x3063)) s := by
    apply chain_of_forall_within
    rintro a b hab ⟨ha, hb⟩
    rw [ha, hb] at hab
    exact hs hab
  have h1 := (translit_no_double 0x3063
    (fun k r hk x hx => ((value_shape hk).2.1 x hx).1) s h0).1
  have h2 := (geminate_no_sokuon_letter _ h1).1
  have h3 := elongate_no_sokuon_letter _ h2
  intro hin
  rw [toRomaji_eq] at hin
  exact rel_of_chain_within h3 (hin.trans (trim_within _)) ⟨rfl, hc⟩

theorem toRomaji_no_sokuon_letter_witness :
    ¬ [0x3063, 0x3063] <:+: utf16 "きっぷ" ∧ isLower 0x70 = true ∧
    ¬ [0x3063, 0x70] <:+: toRomaji (utf16 "きっぷ") :=
  ⟨by decide, by decide, toRomaji_no_sokuon_letter (utf16 "きっぷ") (by decide) 0x70 (by decide)⟩

theorem dropWhile_white_append (p l : JSString) (hp : ∀ c ∈ p, isWhiteSpace c = true) :
    (p ++ l).dropWhile isWhiteSpace = l.dropWhile isWhiteSpace := by
  induction p with
  | nil => rfl
  | cons c p ih =>
    have hc := hp c (List.mem_cons_self _ _)
    simp only [List.cons_append, List.dropWhile, hc]
    exact ih (fun x hx => hp x (List.mem_cons_of_mem _ hx))

theorem rdropWhile_white_append (l q : JSString) (hq : ∀ c ∈ q, isWhiteSpace c = true) :
    (l ++ q).rdropWhile isWhiteSpace = l.rdropWhile isWhiteSpace := by
  unfold List.rdropWhile
  rw [List.reverse_append,
    dropWhile_white_append _ _ (fun c hc => hq c (List.mem_reverse.mp hc))]

/-- White space typed around a string with clean ends is trimmed away. -/
theorem trim_padded (p r q : JSString) (hp : ∀ c ∈ p, isWhiteSpace c = true)
    (hq : ∀ c ∈ q, isWhiteSpace c = true)
    (hhead : ∀ x, r.head? = some x → isWhiteSpace x = false)
    (hlast : ∀ x, r.getLast? = some x → isWhiteSpace x = false) :
    trim (p ++ r ++ q) = r := by
  have hr := trim_of_clean r hhead hlast
  unfold trim at hr ⊢
  rw [List.append_assoc, dropWhile_white_append _ _ hp]
  cases r with
  | nil =>
    rw [List.nil_append]
    have : q.dropWhile isWhiteSpace = [] := by
      have := dropWhile_white_append q [] hq
      simpa using this
    rw [this]
    rfl
  | cons a r =>
    have ha := hhead a rfl
    have h1 : (a :: r ++ q).dropWhile isWhiteSpace = (a :: r) ++ q := by
      simp [List.dropWhile, ha]
    have h2 : (a :: r).dropWhile isWhiteSpace = a :: r := by
      simp [List.dropWhile, ha]
    rw [h1, rdropWhile_white_append _ _ hq]
    rw [h2] at hr
    exact hr

/-! ## Code units of the result -/

set_option maxRecDepth 100000 in
theorem table_values_caseless :
    ∀ e ∈ romajiTable, e.2.all isCaseless = true := by decide!

theorem value_caseless {k r : JSString} (h : ROMAJI_MAP k = some r) :
    ∀ x ∈ r, isCaseless x = true := by
  have := table_values_caseless _ (mem_of_ROMAJI_MAP h)
  simpa [List.all_eq_true] using this

/-- Every code unit that the loop emits is a code unit of the input or of a
value of the table. -/
theorem translit_units (P : Nat → Prop) (hP : ∀ k r, ROMAJI_MAP k = some r → ∀ x ∈ r, P x)
    (s : JSString) (hs : ∀ x ∈ s, P x) : ∀ x ∈ translit s, P x := by
  induction s using translit.induct with
  | case1 => simp [translit]
  | case2 a ht =>
    obtain ⟨c, r, hv⟩ := truthy_value ht
    rw [translit, if_pos ht, hv, Option.getD_some]
    exact hP _ _ hv
  | case3 a ht =>
    rw [translit, if_neg ht, orElse, if_neg ht]
    exact hs
  | case4 a b rest ht ih =>
    obtain ⟨c, r, hv⟩ := truthy_value ht
    rw [translit, if_pos ht, hv, Option.getD_some]
    intro x hx
    rcases List.mem_append.mp hx with h | h
    · exact hP _ _ hv x h
    · exact ih (fun y hy => hs y (by simp [hy])) x h
  | case5 a b rest ht ih =>
    rw [translit, if_neg ht]
    intro x hx
    rcases List.mem_append.mp hx with h | h
    · by_cases h1 : truthy (ROMAJI_MAP [a]) = true
      · obtain ⟨c, r, hv⟩ := truthy_value h1
        rw [orElse, if_pos h1, hv, Option.getD_some] at h
        exact hP _ _ hv x h
      · rw [orElse, if_neg h1] at h
        exact hs x (by
          simp only [List.mem_singleton] at h
          simp [h])
    · exact ih (fun y hy => hs y (List.mem_cons_of_mem _ hy)) x h

theorem geminate_units (l : JSString) : ∀ x ∈ geminate l, x ∈ l := by
  induction l using geminate.induct with
  | case1 => simp [geminate]
  | case2 a => simp [geminate]
  | case3 a b rest hab ih =>
    rw [geminate, if_pos hab]
    intro x hx
    simp only [List.mem_cons] at hx ⊢
    rcases hx with h | h | h
    · exact Or.inr (Or.inl h)
    · exact Or.inr (Or.inl h)
    · exact Or.inr (Or.inr (ih x h))
  | case4 a b rest hab ih =>
    rw [geminate, if_neg hab]
    intro x hx
    rcases List.mem_cons.mp hx with h | h
    · simp [h]
    · exact List.mem_cons_of_mem _ (ih x h)

theorem elongate_units (l : JSString) : ∀ x ∈ elongate l, x ∈ l := by
  induction l using elongate.induct with
  | case1 => simp [elongate]
  | case2 a => simp [elongate]
  | case3 a b rest hab ih =>
    rw [elongate, if_pos hab]
    intro x hx
    simp only [List.mem_cons] at hx ⊢
    rcases hx with h | h | h
    · exact Or.inl h
    · exact Or.inl h
    · exact Or.inr (Or.inr (ih x h))
  | case4 a b rest hab ih =>
    rw [elongate, if_neg hab]
    intro x hx
    rcases List.mem_cons.mp hx with h | h
    · simp [h]
    · exact List.mem_cons_of_mem _ (ih x h)

/-- The expected answer of an accepted entry is made of caseless code units. -/
theorem expectedAnswer_caseless (s : JSString) (hs : isHiragana s = true) :
    ∀ x ∈ expectedAnswer s, isCaseless x = true := by
  have hacc : ∀ x ∈ extractHiragana s, Accepted x := by
    apply accepted_units
    rw [isHiragana_eq_check_extract] at hs
    exact (all_arrayFrom _).mp hs
  have h1 : ∀ x ∈ translit (extractHiragana s), isCaseless x = true :=
    translit_units (fun x => isCaseless x = true) (fun k r hk => value_caseless hk) _
      (fun x hx => by simp [isCaseless, hacc x hx])
  intro x hx
  unfold expectedAnswer at hx
  rw [toRomaji_eq] at hx
  exact h1 x (geminate_units _ x (elongate_units _ x ((trim_within _).subset hx)))

theorem asciiLower_caseless (l : JSString) (h : ∀ c ∈ l, isCaseless c = true) :
    asciiLower l = l := by
  unfold asciiLower
  conv_rhs => rw [← List.map_id l]
  apply List.map_congr_left
  intro c hc
  have := h c hc
  simp only [isCaseless, isLower, Accepted, Bool.or_eq_true, Bool.and_eq_true,
    decide_eq_true_eq, beq_iff_eq] at this
  have hn : ¬ (0x41 ≤ c ∧ c ≤ 0x5A) := by omega
  simp [hn]

theorem isSimple_of_isCaseless {c : Nat} (h : isCaseless c = true) : isSimple c = true := by
  simp only [isCaseless, isLower, Accepted, Bool.or_eq_true, Bool.and_eq_true,
    decide_eq_true_eq, beq_iff_eq] at h
  simp only [isSimple, Accepted, Bool.or_eq_true, decide_eq_true_eq]
  omega

theorem asciiLower_mem {v : JSString} {c : Nat} (hc : c ∈ v) :
    (if 0x41 ≤ c ∧ c ≤ 0x5A then c + 0x20 else c) ∈ asciiLower v := by
  unfold asciiLower
  exact List.mem_map.mpr ⟨c, hc, rfl⟩

/-- A string whose lowercase form is made of caseless code units is made of
ASCII and accepted code units. -/
theorem simple_of_asciiLower {v r : JSString} (hv : asciiLower v = r)
    (hr : ∀ x ∈ r, isCaseless x = true) : ∀ c ∈ v, isSimple c = true := by
  intro c hc
  have hmem := asciiLower_mem hc
  rw [hv] at hmem
  by_cases hu : 0x41 ≤ c ∧ c ≤ 0x5A
  · simp only [isSimple, Bool.or_eq_true, decide_eq_true_eq]
    omega
  · rw [if_neg hu] at hmem
    exact isSimple_of_isCaseless (hr c hmem)

theorem white_of_asciiLower {x : Nat}
    (h : isWhiteSpace (if 0x41 ≤ x ∧ x ≤ 0x5A then x + 0x20 else x) = false) :
    isWhiteSpace x = false := by
  by_cases hu : 0x41 ≤ x ∧ x ≤ 0x5A
  · simp only [isWhiteSpace, Bool.or_eq_false_iff, decide_eq_false_iff_not,
      beq_eq_false_iff_ne]
    omega
  · rw [if_neg hu] at h
    exact h

theorem sampleLower_simple (l : JSString) (h : ∀ c ∈ l, isSimple c = true) :
    sampleLower l = asciiLower l := by
  unfold sampleLower asciiLower
  apply List.map_congr_left
  intro c hc
  have := h c hc
  simp only [isSimple, Accepted, Bool.or_eq_true, decide_eq_true_eq] at this
  have hk : c ≠ 0x212A := by omega
  simp [hk]

/-- C14: answer checking is case-insensitive and white-space-trimmed for every
accepted entry.  The built-in `toLowerCase` is assumed to lowercase the letters
A-Z and to change nothing else on strings of ASCII and accepted code units.
For every text `s` with `isHiragana(s)` true and `r` the expected answer
`toRomaji(extractHiragana(s))`: `r` is unchanged by lowercasing and by
trimming; for every user input `u` the check `u.trim().toLowerCase() === r`
succeeds exactly when `u` and `r` are equal after trimming and lowercasing
both; for input made of ASCII and accepted code units this is equality of the
trimmed strings up to the case of the letters A-Z; and `r` typed in any letter
case, with white space around it, is judged correct. -/
theorem checkAnswer_spec (toLowerCase : JSString → JSString)
    (hlow : ∀ l, (∀ c ∈ l, isSimple c = true) → toLowerCase l = asciiLower l)
    (s : JSString) (hs : isHiragana s = true) :
    toLowerCase (expectedAnswer s) = expectedAnswer s ∧
    trim (expectedAnswer s) = expectedAnswer s ∧
    (∀ u, (checkAnswer toLowerCase u (expectedAnswer s) = true ↔
      toLowerCase (trim u) = toLowerCase (trim (expectedAnswer s)))) ∧
    (∀ u : JSString, (∀ c ∈ u, isSimple c = true) →
      (checkAnswer toLowerCase u (expectedAnswer s) = true ↔
        asciiLower (trim u) = asciiLower (trim (expectedAnswer s)))) ∧
    (∀ p v q : JSString, (∀ c ∈ p, isWhiteSpace c = true) →
      (∀ c ∈ q, isWhiteSpace c = true) → asciiLower v = expectedAnswer s →
      checkAnswer toLowerCase (p ++ v ++ q) (expectedAnswer s) = true) := by
  have hcl := expectedAnswer_caseless s hs
  have h0 : asciiLower (expectedAnswer s) = expectedAnswer s := asciiLower_caseless _ hcl
  have h1 : toLowerCase (expectedAnswer s) = expectedAnswer s := by
    rw [hlow _ (fun c hc => isSimple_of_isCaseless (hcl c hc)), h0]
  have hh : ∀ x, (expectedAnswer s).head? = some x → isWhiteSpace x = false :=
    fun x hx => trim_head _ x hx
  have hl : ∀ x, (expectedAnswer s).getLast? = some x → isWhiteSpace x = false :=
    fun x hx => trim_last _ x hx
  have h2 : trim (expectedAnswer s) = expectedAnswer s := trim_of_clean _ hh hl
  refine ⟨h1, h2, ?_, ?_, ?_⟩
  · intro u
    rw [h2, h1]
    simp [checkAnswer]
  · intro u hu
    have hsim : ∀ c ∈ trim u, isSimple c = true :=
      fun c hc => hu c ((trim_within u).subset hc)
    unfold checkAnswer
    rw [hlow _ hsim, h2, h0]
    simp
  · intro p v q hp hq hv
    have hvh : ∀ x, v.head? = some x → isWhiteSpace x = false := by
      intro x hx
      apply white_of_asciiLower
      apply hh
      rw [← hv]
      unfold asciiLower
      rw [List.head?_map, hx]
      rfl
    have hvl : ∀ x, v.getLast? = some x → isWhiteSpace x = false := by
      intro x hx
      apply white_of_asciiLower
      apply hl
      rw [← hv]
      unfold asciiLower
      rw [List.getLast?_map, hx]
      rfl
    unfold checkAnswer
    rw [trim_padded p v q hp hq hvh hvl, hlow v (simple_of_asciiLower hv hcl), hv]
    simp

theorem checkAnswer_spec_witness :
    isHiragana (utf16 "切符【きっぷ】") = true ∧
    expectedAnswer (utf16 "切符【きっぷ】") = utf16 "kippu" ∧
    asciiLower (utf16 "KiPPu") = expectedAnswer (utf16 "切符【きっぷ】") ∧
    checkAnswer sampleLower (utf16 "  " ++ utf16 "KiPPu" ++ utf16 " ")
      (expectedAnswer (utf16 "切符【きっぷ】")) = true ∧
    checkAnswer sampleLower (0x212A :: utf16 "ippu")
      (expectedAnswer (utf16 "切符【きっぷ】")) = true :=
  ⟨by decide, by decide, by decide,
    (checkAnswer_spec sampleLower sampleLower_simple (utf16 "切符【きっぷ】")
      (by decide)).2.2.2.2 (utf16 "  ") (utf16 "KiPPu") (utf16 " ") (by decide) (by decide)
      (by decide),
    by decide⟩

end HiraganaPractice
